import Mathlib

/-!
# Verification of the vc-cli credential core

A shallow embedding, in Lean 4, of the credential signing/verification
dispatch logic and the BBS+ selective-disclosure proof-envelope codec of the
vc-cli repository (`src/lib/proofValue.js`, `src/lib/verify.js`, the
`index.js` dispatch module and the `cid.js` generator), together with proofs
of the specification's testable properties.

External collaborators (elliptic-curve signers/verifiers, RDF
canonicalizers, hashers, key generators) are modelled as injected function
parameters, exactly as the specification's §6 prescribes.  Bytes are `Nat`
values with explicit `< 256` bounds; fallible JavaScript code is modelled
with `Except`.
-/

namespace VcCli

/-! ## Decimal rendering and strict parsing of natural numbers

JavaScript template literals render integers in decimal
(`` `c14n${k}` ``, `` `${controller}#key-${i}` ``).  We model that rendering
with a fuel-based structurally recursive function so that it reduces inside
`decide`/`rfl` proofs. -/

/-- Little-endian base-10 digits of `n`, computed with explicit fuel. -/
def natDigitsLE : Nat → Nat → List Nat
  | 0, _ => []
  | fuel + 1, n => if n = 0 then [] else n % 10 :: natDigitsLE fuel (n / 10)

/-- The decimal digit character for `d < 10`. -/
def digitChar (d : Nat) : Char :=
  match d with
  | 0 => '0' | 1 => '1' | 2 => '2' | 3 => '3' | 4 => '4'
  | 5 => '5' | 6 => '6' | 7 => '7' | 8 => '8' | _ => '9'

/-- Decimal rendering of a natural number, as a character list
(the JavaScript `${n}` template rendering). -/
def natReprChars (n : Nat) : List Char :=
  if n = 0 then ['0'] else ((natDigitsLE (n + 1) n).reverse).map digitChar

/-- Decimal rendering of a natural number as a string. -/
def natReprStr (n : Nat) : String := String.mk (natReprChars n)

/-- Decimal rendering of an integer, as JavaScript `${i}` renders it. -/
def intReprStr (i : Int) : String :=
  if i < 0 then String.mk ('-' :: natReprChars i.natAbs) else natReprStr i.toNat

/-- Is `c` one of the characters '0'-'9'? -/
def isDigitChar (c : Char) : Bool := 48 ≤ c.toNat && c.toNat ≤ 57

/-- The numeric value of a decimal digit character. -/
def digitVal (c : Char) : Nat := c.toNat - 48

/-- Big-endian digit-character fold: the number denoted by `cs`. -/
def charsToNat (cs : List Char) : Nat :=
  cs.foldl (fun acc c => acc * 10 + digitVal c) 0

/-- Strict decimal parser: nonempty, all digits, no leading zero
(except for the single string "0"). -/
def parseNatStrict (cs : List Char) : Option Nat :=
  match cs with
  | [] => none
  | c :: rest =>
    if !((c :: rest).all isDigitChar) then none
    else if c = '0' && !rest.isEmpty then none
    else some (charsToNat (c :: rest))

theorem digitVal_digitChar : ∀ d < 10, digitVal (digitChar d) = d := by decide

theorem isDigitChar_digitChar : ∀ d < 10, isDigitChar (digitChar d) = true := by decide

theorem digitChar_ne_zero_char : ∀ d < 10, d ≠ 0 → digitChar d ≠ '0' := by decide

theorem natDigitsLE_all_lt_ten : ∀ fuel n, ∀ d ∈ natDigitsLE fuel n, d < 10 := by
  intro fuel
  induction fuel with
  | zero => intro n d hd; simp [natDigitsLE] at hd
  | succ k ih =>
    intro n d hd
    simp only [natDigitsLE] at hd
    split at hd
    · simp at hd
    · rcases List.mem_cons.mp hd with h | h
      · omega
      · exact ih _ _ h

theorem natDigitsLE_ne_nil (fuel n : Nat) (hn : 0 < n) (hfuel : 0 < fuel) :
    natDigitsLE fuel n ≠ [] := by
  cases fuel with
  | zero => omega
  | succ k =>
    simp only [natDigitsLE]
    rw [if_neg (show ¬n = 0 from by omega)]
    simp

theorem natDigitsLE_zero (fuel : Nat) : natDigitsLE fuel 0 = [] := by
  cases fuel <;> simp [natDigitsLE]

theorem natDigitsLE_succ_pos (k n : Nat) (hn : n ≠ 0) :
    natDigitsLE (k + 1) n = n % 10 :: natDigitsLE k (n / 10) := by
  simp [natDigitsLE, hn]

theorem natDigitsLE_getLast?_ne_zero :
    ∀ fuel n, 0 < n → n < 10 ^ fuel →
      ∀ d, (natDigitsLE fuel n).getLast? = some d → d ≠ 0 := by
  intro fuel
  induction fuel with
  | zero => intro n hn hbound d hd; simp at hbound; omega
  | succ k ih =>
    intro n hn hbound d hd
    rw [natDigitsLE_succ_pos k n (by omega)] at hd
    by_cases hq : n / 10 = 0
    · rw [hq, natDigitsLE_zero] at hd
      simp only [List.getLast?_singleton, Option.some.injEq] at hd
      omega
    · have hk : 0 < k := by
        by_contra hk0
        have hkz : k = 0 := by omega
        subst hkz
        simp at hbound
        omega
      have hne : natDigitsLE k (n / 10) ≠ [] :=
        natDigitsLE_ne_nil _ _ (by omega) hk
      obtain ⟨b, t, hbt⟩ := List.exists_cons_of_ne_nil hne
      rw [hbt, List.getLast?_cons_cons, ← hbt] at hd
      exact ih (n / 10) (by omega) (by rw [pow_succ] at hbound; omega) d hd

/-- Folding the reversed little-endian digits rebuilds the number. -/
theorem foldl_digits_rebuild :
    ∀ fuel n a, n < 10 ^ fuel →
      List.foldl (fun acc d => acc * 10 + d) a ((natDigitsLE fuel n).reverse) =
        a * 10 ^ (natDigitsLE fuel n).length + n := by
  intro fuel
  induction fuel with
  | zero =>
    intro n a h
    simp [natDigitsLE]
    omega
  | succ k ih =>
    intro n a h
    simp only [natDigitsLE]
    split
    · simp
      omega
    · rw [List.reverse_cons, List.foldl_append]
      have hq : n / 10 < 10 ^ k := by
        rw [pow_succ] at h
        omega
      rw [ih (n / 10) a hq]
      simp only [List.foldl_cons, List.foldl_nil, List.length_cons]
      rw [pow_succ]
      have := Nat.div_add_mod n 10
      ring_nf
      omega

theorem foldl_map_digitChar :
    ∀ (ds : List Nat) (a : Nat), (∀ d ∈ ds, d < 10) →
      List.foldl (fun acc c => acc * 10 + digitVal c) a (ds.map digitChar) =
        List.foldl (fun acc d => acc * 10 + d) a ds := by
  intro ds
  induction ds with
  | nil => intro a _; simp
  | cons d rest ih =>
    intro a hds
    simp only [List.map_cons, List.foldl_cons]
    rw [digitVal_digitChar d (hds d (List.mem_cons_self d rest))]
    exact ih _ (fun x hx => hds x (List.mem_cons_of_mem d hx))

theorem charsToNat_natReprChars (n : Nat) : charsToNat (natReprChars n) = n := by
  unfold natReprChars
  split
  · rename_i h0
    subst h0
    decide
  · have hbound : n < 10 ^ (n + 1) :=
      lt_of_lt_of_le (@Nat.lt_pow_self 10 (by norm_num) n)
        (Nat.pow_le_pow_right (by norm_num) (by omega))
    unfold charsToNat
    rw [foldl_map_digitChar _ 0
      (fun d hd => natDigitsLE_all_lt_ten _ _ d (List.mem_reverse.mp hd))]
    rw [foldl_digits_rebuild (n + 1) n 0 hbound]
    simp

theorem natReprChars_ne_nil (n : Nat) : natReprChars n ≠ [] := by
  unfold natReprChars
  split
  · simp
  · simp only [ne_eq, List.map_eq_nil_iff, List.reverse_eq_nil_iff]
    exact natDigitsLE_ne_nil _ _ (by omega) (by omega)

theorem natReprChars_all_digits (n : Nat) :
    (natReprChars n).all isDigitChar = true := by
  unfold natReprChars
  split
  · decide
  · rw [List.all_eq_true]
    intro c hc
    rw [List.mem_map] at hc
    obtain ⟨d, hd, rfl⟩ := hc
    exact isDigitChar_digitChar d (natDigitsLE_all_lt_ten _ _ d (List.mem_reverse.mp hd))

theorem natReprChars_head?_ne_zero (n : Nat) (hn : 0 < n) :
    ∀ c, (natReprChars n).head? = some c → c ≠ '0' := by
  intro c hc
  have hbound : n < 10 ^ (n + 1) :=
      lt_of_lt_of_le (@Nat.lt_pow_self 10 (by norm_num) n)
        (Nat.pow_le_pow_right (by norm_num) (by omega))
  unfold natReprChars at hc
  rw [if_neg (show ¬n = 0 from by omega)] at hc
  rw [List.head?_map, List.head?_reverse] at hc
  rcases ho : (natDigitsLE (n + 1) n).getLast? with _ | d
  · rw [ho] at hc
    simp at hc
  · rw [ho] at hc
    have hdc : digitChar d = c := by simpa using hc
    subst hdc
    exact digitChar_ne_zero_char d
      (natDigitsLE_all_lt_ten _ _ d (List.mem_of_mem_getLast? ho))
      (natDigitsLE_getLast?_ne_zero _ _ (by omega) hbound d ho)

/-- Round trip: strictly parsing the decimal rendering gives the number back. -/
theorem parseNatStrict_natReprChars (n : Nat) :
    parseNatStrict (natReprChars n) = some n := by
  have hne := natReprChars_ne_nil n
  obtain ⟨c, rest, hcr⟩ := List.exists_cons_of_ne_nil hne
  have hall := natReprChars_all_digits n
  have hfold := charsToNat_natReprChars n
  by_cases hn : n = 0
  · subst hn
    decide
  · have hhead : c ≠ '0' :=
      natReprChars_head?_ne_zero n (by omega) c (by rw [hcr]; rfl)
    rw [hcr] at hall hfold ⊢
    rw [show parseNatStrict (c :: rest) =
      (if !((c :: rest).all isDigitChar) then none
       else if c = '0' && !rest.isEmpty then none
       else some (charsToNat (c :: rest))) from rfl]
    rw [hall]
    simp only [Bool.not_true, Bool.false_eq_true, if_false]
    rw [if_neg (by simp [hhead])]
    rw [hfold]


/-! ## Base64url (unpadded) text encoding

`proofValue` carries `'u'` followed by unpadded base64url text
(`base64url-universal`'s `encode`/`decode`).  Bytes are `Nat` values below
256. -/

/-- The base64url alphabet, in value order. -/
def b64Chars : List Char :=
  "ABCDEFGHIJKLMNOPQRSTUVWXYZabcdefghijklmnopqrstuvwxyz0123456789-_".data

/-- The alphabet character of a 6-bit value. -/
def sixToChar (v : Nat) : Char := b64Chars.getD v 'A'

/-- Index of a character in a list, or `none`. -/
def charIdx (c : Char) : List Char → Option Nat
  | [] => none
  | x :: xs => if x = c then some 0 else (charIdx c xs).map (· + 1)

/-- The 6-bit value of an alphabet character, or `none` for a character
outside the base64url alphabet. -/
def charToSix (c : Char) : Option Nat := charIdx c b64Chars

/-- Unpadded base64url encoding of a byte list. -/
def b64EncodeBytes : List Nat → List Char
  | [] => []
  | [a] => [sixToChar (a / 4), sixToChar (a % 4 * 16)]
  | [a, b] =>
      [sixToChar (a / 4), sixToChar (a % 4 * 16 + b / 16), sixToChar (b % 16 * 4)]
  | a :: b :: c :: rest =>
      sixToChar (a / 4) :: sixToChar (a % 4 * 16 + b / 16) ::
        sixToChar (b % 16 * 4 + c / 64) :: sixToChar (c % 64) :: b64EncodeBytes rest

/-- Unpadded base64url decoding of a character list; `none` on a character
outside the alphabet or on an impossible (`4k+1`) length. -/
def b64DecodeChars : List Char → Option (List Nat)
  | [] => some []
  | [_] => none
  | [c1, c2] =>
    match charToSix c1, charToSix c2 with
    | some v1, some v2 => some [v1 * 4 + v2 / 16]
    | _, _ => none
  | [c1, c2, c3] =>
    match charToSix c1, charToSix c2, charToSix c3 with
    | some v1, some v2, some v3 =>
      some [v1 * 4 + v2 / 16, v2 % 16 * 16 + v3 / 4]
    | _, _, _ => none
  | c1 :: c2 :: c3 :: c4 :: rest =>
    match charToSix c1, charToSix c2, charToSix c3, charToSix c4,
        b64DecodeChars rest with
    | some v1, some v2, some v3, some v4, some tail =>
      some ((v1 * 4 + v2 / 16) :: (v2 % 16 * 16 + v3 / 4) :: (v3 % 4 * 64 + v4) :: tail)
    | _, _, _, _, _ => none

theorem charToSix_sixToChar : ∀ v < 64, charToSix (sixToChar v) = some v := by decide

/-- Base64url round trip on byte lists. -/
theorem b64_roundtrip_fuel :
    ∀ fuel bs, bs.length ≤ fuel → (∀ x ∈ bs, x < 256) →
      b64DecodeChars (b64EncodeBytes bs) = some bs := by
  intro fuel
  induction fuel with
  | zero =>
    intro bs hlen _
    have hnil : bs = [] := List.eq_nil_of_length_eq_zero (by omega)
    subst hnil
    rfl
  | succ k ih =>
    intro bs hlen hbound
    match bs with
    | [] => rfl
    | [a] =>
      have ha : a < 256 := hbound a (by simp)
      simp only [b64EncodeBytes, b64DecodeChars]
      rw [charToSix_sixToChar (a / 4) (by omega), charToSix_sixToChar (a % 4 * 16) (by omega)]
      simp only [Option.some.injEq, List.cons.injEq, and_true]
      omega
    | [a, b] =>
      have ha : a < 256 := hbound a (by simp)
      have hb : b < 256 := hbound b (by simp)
      simp only [b64EncodeBytes, b64DecodeChars]
      rw [charToSix_sixToChar (a / 4) (by omega),
        charToSix_sixToChar (a % 4 * 16 + b / 16) (by omega),
        charToSix_sixToChar (b % 16 * 4) (by omega)]
      simp only [Option.some.injEq, List.cons.injEq, and_true]
      constructor
      · omega
      · omega
    | a :: b :: c :: rest =>
      have ha : a < 256 := hbound a (by simp)
      have hb : b < 256 := hbound b (by simp)
      have hc : c < 256 := hbound c (by simp)
      have hrest : b64DecodeChars (b64EncodeBytes rest) = some rest := by
        apply ih
        · simp at hlen
          omega
        · intro x hx
          exact hbound x (by simp [hx])
      simp only [b64EncodeBytes, b64DecodeChars]
      rw [charToSix_sixToChar (a / 4) (by omega),
        charToSix_sixToChar (a % 4 * 16 + b / 16) (by omega),
        charToSix_sixToChar (b % 16 * 4 + c / 64) (by omega),
        charToSix_sixToChar (c % 64) (by omega), hrest]
      simp only [Option.some.injEq, List.cons.injEq, and_true]
      refine ⟨by omega, by omega, by omega⟩

/-- Base64url round trip on byte lists. -/
theorem b64_roundtrip (bs : List Nat) (h : ∀ x ∈ bs, x < 256) :
    b64DecodeChars (b64EncodeBytes bs) = some bs :=
  b64_roundtrip_fuel bs.length bs (le_refl _) h

/-! ## The JavaScript prefix check

`_startsWithBytes(buffer, expected)` compares `buffer[i] !== expected[i]`
positionally; a too-short buffer yields `undefined` on the left, which is
unequal to every byte, so the translation below (which fails when the buffer
runs out first) is observationally identical. -/

/-- Positional prefix comparison of byte lists, as `_startsWithBytes` does. -/
def startsWithBytes (buffer expected : List Nat) : Bool :=
  match expected, buffer with
  | [], _ => true
  | _ :: _, [] => false
  | e :: es, b :: bs => b == e && startsWithBytes bs es

theorem startsWithBytes_append : ∀ (p t : List Nat), startsWithBytes (p ++ t) p = true := by
  intro p
  induction p with
  | nil => intro t; simp [startsWithBytes]
  | cons x xs ih =>
    intro t
    show (x == x && startsWithBytes (xs ++ t) xs) = true
    rw [ih t]
    simp

/-! ## CBOR (the subset used by `cborg.decode`/`cborg.encode` on envelopes)

The envelope payload is a definite-length CBOR item.  `cborg.decode` is
called with `useMaps: true` and a handler for tag 64 that returns the
decoded content unchanged (`_decodeUint8Array`).  The decoder below is
fuel-based and structurally recursive so that it evaluates inside
kernel-checked `rfl`/`decide` proofs; the fuel supplied at the entry point
is always sufficient for the inputs considered.  Unknown tags, major type 7
and indefinite lengths are decoding errors (the envelope encoder never
emits them, and every decoding error funnels into the same
`MalformedProofError` observable). -/

/-- A decoded CBOR data item. -/
inductive CborValue where
  | int (n : Int)
  | bytes (bs : List Nat)
  | text (bs : List Nat)
  | array (items : List CborValue)
  | map (entries : List (CborValue × CborValue))

/-- Decode a CBOR item head given its first byte: major type, argument
value, remaining bytes. -/
def decodeHeadAux (b : Nat) (rest : List Nat) : Except String (Nat × Nat × List Nat) :=
  if b % 32 < 24 then .ok (b / 32, b % 32, rest)
  else if b % 32 = 24 then
    match rest with
    | x1 :: r => .ok (b / 32, x1, r)
    | _ => .error "unexpected end of data"
  else if b % 32 = 25 then
    match rest with
    | x1 :: x2 :: r => .ok (b / 32, x1 * 256 + x2, r)
    | _ => .error "unexpected end of data"
  else if b % 32 = 26 then
    match rest with
    | x1 :: x2 :: x3 :: x4 :: r =>
      .ok (b / 32, ((x1 * 256 + x2) * 256 + x3) * 256 + x4, r)
    | _ => .error "unexpected end of data"
  else if b % 32 = 27 then
    match rest with
    | x1 :: x2 :: x3 :: x4 :: x5 :: x6 :: x7 :: x8 :: r =>
      .ok (b / 32,
        ((((((x1 * 256 + x2) * 256 + x3) * 256 + x4) * 256 + x5) * 256 + x6)
          * 256 + x7) * 256 + x8, r)
    | _ => .error "unexpected end of data"
  else .error "unsupported additional information"

/-- Decode a CBOR item head: major type, argument value, remaining bytes. -/
def decodeHead : List Nat → Except String (Nat × Nat × List Nat)
  | [] => .error "unexpected end of data"
  | b :: rest => decodeHeadAux b rest

/-- Group a flat key/value item list into pairs (CBOR map entries). -/
def pairUp : List CborValue → Except String (List (CborValue × CborValue))
  | [] => .ok []
  | [_] => .error "odd map entry count"
  | k :: v :: rest =>
    match pairUp rest with
    | .error e => .error e
    | .ok ps => .ok ((k, v) :: ps)

/-- Decode `count` consecutive CBOR items.  Fuel decreases on every
recursive call, making the recursion structural (and kernel-reducible). -/
def dec : Nat → Nat → List Nat → Except String (List CborValue × List Nat)
  | _, 0, bytes => .ok ([], bytes)
  | 0, _ + 1, _ => .error "insufficient fuel"
  | fuel + 1, count + 1, bytes =>
    match decodeHead bytes with
    | .error e => .error e
    | .ok (major, n, rest) =>
      if major = 0 then
        match dec fuel count rest with
        | .error e => .error e
        | .ok (vs, rr) => .ok (.int (Int.ofNat n) :: vs, rr)
      else if major = 1 then
        match dec fuel count rest with
        | .error e => .error e
        | .ok (vs, rr) => .ok (.int (-1 - Int.ofNat n) :: vs, rr)
      else if major = 2 then
        if n ≤ rest.length then
          match dec fuel count (rest.drop n) with
          | .error e => .error e
          | .ok (vs, rr) => .ok (.bytes (rest.take n) :: vs, rr)
        else .error "unexpected end of byte string"
      else if major = 3 then
        if n ≤ rest.length then
          match dec fuel count (rest.drop n) with
          | .error e => .error e
          | .ok (vs, rr) => .ok (.text (rest.take n) :: vs, rr)
        else .error "unexpected end of text string"
      else if major = 4 then
        match dec fuel n rest with
        | .error e => .error e
        | .ok (items, r1) =>
          match dec fuel count r1 with
          | .error e => .error e
          | .ok (ws, r2) => .ok (.array items :: ws, r2)
      else if major = 5 then
        match dec fuel (2 * n) rest with
        | .error e => .error e
        | .ok (flat, r1) =>
          match pairUp flat with
          | .error e => .error e
          | .ok entries =>
            match dec fuel count r1 with
            | .error e => .error e
            | .ok (ws, r2) => .ok (.map entries :: ws, r2)
      else if major = 6 then
        if n = 64 then
          match dec fuel 1 rest with
          | .error e => .error e
          | .ok (inner, r1) =>
            match dec fuel count r1 with
            | .error e => .error e
            | .ok (ws, r2) => .ok (inner ++ ws, r2)
        else .error "unsupported tag"
      else .error "unsupported major type"

/-- `cborg.decode`: decode exactly one item and reject trailing bytes. -/
def cborgDecode (bytes : List Nat) : Except String CborValue :=
  match dec (bytes.length + 1) 1 bytes with
  | .error e => .error e
  | .ok (vs, rest) =>
    match vs, rest with
    | [v], [] => .ok v
    | _, _ => .error "too many terms in input"

/-- Encode a CBOR item head with the minimal-length argument encoding
(`cborg.encode`'s canonical form), for arguments below `2 ^ 64`. -/
def encHead (major n : Nat) : List Nat :=
  if n < 24 then [major * 32 + n]
  else if n < 256 then [major * 32 + 24, n]
  else if n < 65536 then [major * 32 + 25, n / 256, n % 256]
  else if n < 4294967296 then
    [major * 32 + 26, n / 16777216 % 256, n / 65536 % 256, n / 256 % 256, n % 256]
  else
    [major * 32 + 27, n / 72057594037927936 % 256, n / 281474976710656 % 256,
      n / 1099511627776 % 256, n / 4294967296 % 256, n / 16777216 % 256,
      n / 65536 % 256, n / 256 % 256, n % 256]

/-- Encode an unsigned integer item. -/
def encUInt (n : Nat) : List Nat := encHead 0 n

/-- Encode a byte-string item. -/
def encBytesItem (bs : List Nat) : List Nat := encHead 2 bs.length ++ bs

/-- Concatenated encodings of a list of unsigned integers. -/
def encUIntSeq : List Nat → List Nat
  | [] => []
  | x :: xs => encUInt x ++ encUIntSeq xs

/-- Encode an array of unsigned integers. -/
def encUIntArray (xs : List Nat) : List Nat := encHead 4 xs.length ++ encUIntSeq xs

/-- Concatenated key/value encodings of integer pairs. -/
def encPairSeq : List (Nat × Nat) → List Nat
  | [] => []
  | (k, v) :: rest => encUInt k ++ encUInt v ++ encPairSeq rest

/-- Encode a map of unsigned-integer pairs, in the given entry order. -/
def encUIntMap (m : List (Nat × Nat)) : List Nat := encHead 5 m.length ++ encPairSeq m

theorem decodeHead_encHead (major n : Nat) (hn : n < 18446744073709551616)
    (r : List Nat) : decodeHead (encHead major n ++ r) = .ok (major, n, r) := by
  unfold encHead
  split_ifs with h1 h2 h3 h4
  · show decodeHeadAux (major * 32 + n) r = .ok (major, n, r)
    unfold decodeHeadAux
    rw [if_pos (show (major * 32 + n) % 32 < 24 from by omega)]
    simp only [Except.ok.injEq, Prod.mk.injEq, and_true]
    omega
  · show decodeHeadAux (major * 32 + 24) (n :: r) = .ok (major, n, r)
    unfold decodeHeadAux
    rw [if_neg (show ¬(major * 32 + 24) % 32 < 24 from by omega),
      if_pos (show (major * 32 + 24) % 32 = 24 from by omega)]
    show Except.ok ((major * 32 + 24) / 32, n, r) = Except.ok (major, n, r)
    simp only [Except.ok.injEq, Prod.mk.injEq, and_true]
    omega
  · show decodeHeadAux (major * 32 + 25) (n / 256 :: n % 256 :: r) = .ok (major, n, r)
    unfold decodeHeadAux
    rw [if_neg (show ¬(major * 32 + 25) % 32 < 24 from by omega),
      if_neg (show ¬(major * 32 + 25) % 32 = 24 from by omega),
      if_pos (show (major * 32 + 25) % 32 = 25 from by omega)]
    show Except.ok ((major * 32 + 25) / 32, n / 256 * 256 + n % 256, r) =
      Except.ok (major, n, r)
    simp only [Except.ok.injEq, Prod.mk.injEq, and_true]
    omega
  · show decodeHeadAux (major * 32 + 26) (n / 16777216 % 256 :: n / 65536 % 256 ::
      n / 256 % 256 :: n % 256 :: r) = .ok (major, n, r)
    unfold decodeHeadAux
    rw [if_neg (show ¬(major * 32 + 26) % 32 < 24 from by omega),
      if_neg (show ¬(major * 32 + 26) % 32 = 24 from by omega),
      if_neg (show ¬(major * 32 + 26) % 32 = 25 from by omega),
      if_pos (show (major * 32 + 26) % 32 = 26 from by omega)]
    show Except.ok ((major * 32 + 26) / 32,
      ((n / 16777216 % 256 * 256 + n / 65536 % 256) * 256 + n / 256 % 256) * 256
        + n % 256, r) = Except.ok (major, n, r)
    simp only [Except.ok.injEq, Prod.mk.injEq, and_true]
    omega
  · show decodeHeadAux (major * 32 + 27) (n / 72057594037927936 % 256 ::
      n / 281474976710656 % 256 :: n / 1099511627776 % 256 :: n / 4294967296 % 256 ::
      n / 16777216 % 256 :: n / 65536 % 256 :: n / 256 % 256 :: n % 256 :: r) =
      .ok (major, n, r)
    unfold decodeHeadAux
    rw [if_neg (show ¬(major * 32 + 27) % 32 < 24 from by omega),
      if_neg (show ¬(major * 32 + 27) % 32 = 24 from by omega),
      if_neg (show ¬(major * 32 + 27) % 32 = 25 from by omega),
      if_neg (show ¬(major * 32 + 27) % 32 = 26 from by omega),
      if_pos (show (major * 32 + 27) % 32 = 27 from by omega)]
    show Except.ok ((major * 32 + 27) / 32,
      ((((((n / 72057594037927936 % 256 * 256 + n / 281474976710656 % 256) * 256
        + n / 1099511627776 % 256) * 256 + n / 4294967296 % 256) * 256
        + n / 16777216 % 256) * 256 + n / 65536 % 256) * 256 + n / 256 % 256) * 256
        + n % 256, r) = Except.ok (major, n, r)
    simp only [Except.ok.injEq, Prod.mk.injEq, and_true]
    omega

theorem dec_count_zero (f : Nat) (b : List Nat) : dec f 0 b = .ok ([], b) := by
  cases f <;> rfl

theorem dec_uint_cons (f c n : Nat) (r : List Nat) (vs : List CborValue) (rr : List Nat)
    (hn : n < 18446744073709551616)
    (hcont : dec f c r = .ok (vs, rr)) :
    dec (f + 1) (c + 1) (encUInt n ++ r) = .ok (.int (Int.ofNat n) :: vs, rr) := by
  simp only [encUInt]
  simp only [dec, decodeHead_encHead 0 n hn r, hcont]
  simp

theorem dec_bytes_cons (f c : Nat) (bs r : List Nat) (vs : List CborValue) (rr : List Nat)
    (hlen : bs.length < 18446744073709551616)
    (hcont : dec f c r = .ok (vs, rr)) :
    dec (f + 1) (c + 1) (encBytesItem bs ++ r) = .ok (.bytes bs :: vs, rr) := by
  simp only [encBytesItem, List.append_assoc]
  simp only [dec, decodeHead_encHead 2 bs.length hlen (bs ++ r)]
  rw [if_pos (show bs.length ≤ (bs ++ r).length from by simp)]
  rw [List.drop_left, List.take_left, hcont]
  simp

theorem dec_array_cons (f c n : Nat) (s r1 : List Nat) (items ws : List CborValue)
    (r2 : List Nat) (hn : n < 18446744073709551616)
    (hsub : dec f n s = .ok (items, r1))
    (hcont : dec f c r1 = .ok (ws, r2)) :
    dec (f + 1) (c + 1) (encHead 4 n ++ s) = .ok (.array items :: ws, r2) := by
  simp only [dec, decodeHead_encHead 4 n hn s, hsub, hcont]
  simp

theorem dec_map_cons (f c n : Nat) (s r1 : List Nat) (flat : List CborValue)
    (entries : List (CborValue × CborValue)) (ws : List CborValue) (r2 : List Nat)
    (hn : n < 18446744073709551616)
    (hsub : dec f (2 * n) s = .ok (flat, r1))
    (hpair : pairUp flat = .ok entries)
    (hcont : dec f c r1 = .ok (ws, r2)) :
    dec (f + 1) (c + 1) (encHead 5 n ++ s) = .ok (.map entries :: ws, r2) := by
  simp only [dec, decodeHead_encHead 5 n hn s, hsub, hpair, hcont]
  simp

/-- CBOR integer items for a list of naturals. -/
def cborIntsOfNats (xs : List Nat) : List CborValue :=
  xs.map (fun x => CborValue.int (Int.ofNat x))

/-- The flat key/value item sequence of an integer-pair map. -/
def flatCborOfPairs : List (Nat × Nat) → List CborValue
  | [] => []
  | (k, v) :: rest => .int (Int.ofNat k) :: .int (Int.ofNat v) :: flatCborOfPairs rest

/-- CBOR map entries for an integer-pair map. -/
def cborPairsOfPairs (m : List (Nat × Nat)) : List (CborValue × CborValue) :=
  m.map (fun p => (CborValue.int (Int.ofNat p.1), CborValue.int (Int.ofNat p.2)))

theorem dec_encUIntSeq :
    ∀ (xs : List Nat) (f c : Nat) (r : List Nat) (vs : List CborValue) (rr : List Nat),
      (∀ x ∈ xs, x < 18446744073709551616) → dec f c r = .ok (vs, rr) →
      dec (f + xs.length) (c + xs.length) (encUIntSeq xs ++ r) =
        .ok (cborIntsOfNats xs ++ vs, rr) := by
  intro xs
  induction xs with
  | nil =>
    intro f c r vs rr _ hcont
    simpa [encUIntSeq, cborIntsOfNats] using hcont
  | cons x xs ih =>
    intro f c r vs rr hb hcont
    have ihx := ih f c r vs rr (fun y hy => hb y (List.mem_cons_of_mem x hy)) hcont
    have hx : x < 18446744073709551616 := hb x (List.mem_cons_self x xs)
    have := dec_uint_cons (f + xs.length) (c + xs.length) x (encUIntSeq xs ++ r)
      (cborIntsOfNats xs ++ vs) rr hx ihx
    simpa [encUIntSeq, cborIntsOfNats, List.append_assoc] using this

theorem pairUp_flatCborOfPairs :
    ∀ (m : List (Nat × Nat)), pairUp (flatCborOfPairs m) = .ok (cborPairsOfPairs m) := by
  intro m
  induction m with
  | nil => rfl
  | cons p rest ih =>
    obtain ⟨k, v⟩ := p
    simp only [flatCborOfPairs, pairUp, ih, cborPairsOfPairs, List.map_cons]

theorem dec_encPairSeq :
    ∀ (m : List (Nat × Nat)) (f c : Nat) (r : List Nat) (vs : List CborValue) (rr : List Nat),
      (∀ p ∈ m, p.1 < 18446744073709551616 ∧ p.2 < 18446744073709551616) →
      dec f c r = .ok (vs, rr) →
      dec (f + 2 * m.length) (c + 2 * m.length) (encPairSeq m ++ r) =
        .ok (flatCborOfPairs m ++ vs, rr) := by
  intro m
  induction m with
  | nil =>
    intro f c r vs rr _ hcont
    simpa [encPairSeq, flatCborOfPairs] using hcont
  | cons p rest ih =>
    intro f c r vs rr hb hcont
    obtain ⟨k, v⟩ := p
    have ihx := ih f c r vs rr (fun q hq => hb q (List.mem_cons_of_mem _ hq)) hcont
    have hk : k < 18446744073709551616 := (hb (k, v) (List.mem_cons_self _ _)).1
    have hv : v < 18446744073709551616 := (hb (k, v) (List.mem_cons_self _ _)).2
    have hstepv := dec_uint_cons (f + 2 * rest.length) (c + 2 * rest.length) v
      (encPairSeq rest ++ r) (flatCborOfPairs rest ++ vs) rr hv ihx
    have hstepk := dec_uint_cons (f + 2 * rest.length + 1) (c + 2 * rest.length + 1) k
      (encUInt v ++ (encPairSeq rest ++ r))
      (.int (Int.ofNat v) :: (flatCborOfPairs rest ++ vs)) rr hk hstepv
    have hfuel : f + 2 * ((k, v) :: rest).length = f + 2 * rest.length + 1 + 1 := by
      simp [List.length_cons]
      ring
    have hcount : c + 2 * ((k, v) :: rest).length = c + 2 * rest.length + 1 + 1 := by
      simp [List.length_cons]
      ring
    rw [hfuel, hcount]
    simpa [encPairSeq, flatCborOfPairs, List.append_assoc] using hstepk

/-- The CBOR payload of a derived-proof envelope (after the 3-byte tag):
a 5-element array `[bbsProof, compressedLabelMap, mandatoryIndexes,
selectiveIndexes, presentationHeader]`, encoded as `cborg.encode` does. -/
def encEnvelopePayload (bb : List Nat) (cm : List (Nat × Nat)) (mi si ph : List Nat) :
    List Nat :=
  encHead 4 5 ++ (encBytesItem bb ++ (encUIntMap cm ++
    (encUIntArray mi ++ (encUIntArray si ++ encBytesItem ph))))

/-- The decoded CBOR value of a derived-proof envelope payload. -/
def envelopeCborValue (bb : List Nat) (cm : List (Nat × Nat)) (mi si ph : List Nat) :
    CborValue :=
  .array [.bytes bb, .map (cborPairsOfPairs cm), .array (cborIntsOfNats mi),
    .array (cborIntsOfNats si), .bytes ph]

theorem dec_envelope_payload (bb ph : List Nat) (cm : List (Nat × Nat)) (mi si : List Nat)
    (r : List Nat) (g : Nat)
    (hbb : bb.length < 18446744073709551616) (hph : ph.length < 18446744073709551616)
    (hcm : ∀ p ∈ cm, p.1 < 18446744073709551616 ∧ p.2 < 18446744073709551616)
    (hcml : cm.length < 18446744073709551616)
    (hmi : ∀ x ∈ mi, x < 18446744073709551616) (hmil : mi.length < 18446744073709551616)
    (hsi : ∀ x ∈ si, x < 18446744073709551616) (hsil : si.length < 18446744073709551616)
    (hgsi : si.length ≤ g + 1) (hgmi : mi.length ≤ g + 2) (hgcm : 2 * cm.length ≤ g + 3) :
    dec (g + 6) 1 (encEnvelopePayload bb cm mi si ph ++ r) =
      .ok ([envelopeCborValue bb cm mi si ph], r) := by
  -- element 5: presentationHeader byte string
  have h5 : dec (g + 1) 1 (encBytesItem ph ++ r) = .ok ([.bytes ph], r) := by
    simpa using dec_bytes_cons g 0 ph r [] r hph (dec_count_zero g r)
  -- element 4: selectiveIndexes array
  obtain ⟨f0, hf0⟩ : ∃ f0, f0 + si.length = g + 1 := ⟨g + 1 - si.length, by omega⟩
  have hsubsi : dec (g + 1) si.length (encUIntSeq si ++ (encBytesItem ph ++ r)) =
      .ok (cborIntsOfNats si, encBytesItem ph ++ r) := by
    have := dec_encUIntSeq si f0 0 (encBytesItem ph ++ r) [] _ hsi
      (dec_count_zero f0 _)
    rw [hf0] at this
    simpa using this
  have h4 : dec (g + 2) 2 (encUIntArray si ++ (encBytesItem ph ++ r)) =
      .ok ([.array (cborIntsOfNats si), .bytes ph], r) := by
    have := dec_array_cons (g + 1) 1 si.length
      (encUIntSeq si ++ (encBytesItem ph ++ r)) (encBytesItem ph ++ r)
      (cborIntsOfNats si) [.bytes ph] r hsil hsubsi h5
    simpa [encUIntArray, List.append_assoc] using this
  -- element 3: mandatoryIndexes array
  obtain ⟨f1, hf1⟩ : ∃ f1, f1 + mi.length = g + 2 := ⟨g + 2 - mi.length, by omega⟩
  have hsubmi : dec (g + 2) mi.length
      (encUIntSeq mi ++ (encUIntArray si ++ (encBytesItem ph ++ r))) =
      .ok (cborIntsOfNats mi, encUIntArray si ++ (encBytesItem ph ++ r)) := by
    have := dec_encUIntSeq mi f1 0 (encUIntArray si ++ (encBytesItem ph ++ r)) [] _ hmi
      (dec_count_zero f1 _)
    rw [hf1] at this
    simpa using this
  have h3 : dec (g + 3) 3 (encUIntArray mi ++ (encUIntArray si ++ (encBytesItem ph ++ r))) =
      .ok ([.array (cborIntsOfNats mi), .array (cborIntsOfNats si), .bytes ph], r) := by
    have := dec_array_cons (g + 2) 2 mi.length
      (encUIntSeq mi ++ (encUIntArray si ++ (encBytesItem ph ++ r)))
      (encUIntArray si ++ (encBytesItem ph ++ r))
      (cborIntsOfNats mi) [.array (cborIntsOfNats si), .bytes ph] r hmil hsubmi h4
    simpa [encUIntArray, List.append_assoc] using this
  -- element 2: compressed label map
  obtain ⟨f2, hf2⟩ : ∃ f2, f2 + 2 * cm.length = g + 3 := ⟨g + 3 - 2 * cm.length, by omega⟩
  have hsubcm : dec (g + 3) (2 * cm.length)
      (encPairSeq cm ++ (encUIntArray mi ++ (encUIntArray si ++ (encBytesItem ph ++ r)))) =
      .ok (flatCborOfPairs cm, encUIntArray mi ++ (encUIntArray si ++ (encBytesItem ph ++ r))) := by
    have := dec_encPairSeq cm f2 0
      (encUIntArray mi ++ (encUIntArray si ++ (encBytesItem ph ++ r))) [] _ hcm
      (dec_count_zero f2 _)
    rw [hf2] at this
    simpa using this
  have h2 : dec (g + 4) 4
      (encUIntMap cm ++ (encUIntArray mi ++ (encUIntArray si ++ (encBytesItem ph ++ r)))) =
      .ok ([.map (cborPairsOfPairs cm), .array (cborIntsOfNats mi),
        .array (cborIntsOfNats si), .bytes ph], r) := by
    have := dec_map_cons (g + 3) 3 cm.length
      (encPairSeq cm ++ (encUIntArray mi ++ (encUIntArray si ++ (encBytesItem ph ++ r))))
      (encUIntArray mi ++ (encUIntArray si ++ (encBytesItem ph ++ r)))
      (flatCborOfPairs cm) (cborPairsOfPairs cm)
      [.array (cborIntsOfNats mi), .array (cborIntsOfNats si), .bytes ph] r
      hcml hsubcm (pairUp_flatCborOfPairs cm) h3
    simpa [encUIntMap, List.append_assoc] using this
  -- element 1: bbsProof byte string
  have h1 : dec (g + 5) 5
      (encBytesItem bb ++ (encUIntMap cm ++ (encUIntArray mi ++
        (encUIntArray si ++ (encBytesItem ph ++ r))))) =
      .ok ([.bytes bb, .map (cborPairsOfPairs cm), .array (cborIntsOfNats mi),
        .array (cborIntsOfNats si), .bytes ph], r) :=
    dec_bytes_cons (g + 4) 4 bb _ _ r hbb h2
  -- the 5-element array itself
  have htop := dec_array_cons (g + 5) 0 5
    (encBytesItem bb ++ (encUIntMap cm ++ (encUIntArray mi ++
      (encUIntArray si ++ (encBytesItem ph ++ r))))) r
    [.bytes bb, .map (cborPairsOfPairs cm), .array (cborIntsOfNats mi),
      .array (cborIntsOfNats si), .bytes ph] [] r
    (by norm_num) h1 (dec_count_zero (g + 5) r)
  simpa [encEnvelopePayload, envelopeCborValue, List.append_assoc] using htop

theorem encHead_length_pos (m n : Nat) : 1 ≤ (encHead m n).length := by
  unfold encHead
  split_ifs <;> simp

theorem encUIntSeq_length_ge (xs : List Nat) : xs.length ≤ (encUIntSeq xs).length := by
  induction xs with
  | nil => simp [encUIntSeq]
  | cons x xs ih =>
    have := encHead_length_pos 0 x
    simp only [encUIntSeq, List.length_append, List.length_cons]
    simp only [encUInt] at *
    omega

theorem encPairSeq_length_ge (m : List (Nat × Nat)) :
    2 * m.length ≤ (encPairSeq m).length := by
  induction m with
  | nil => simp [encPairSeq]
  | cons p rest ih =>
    obtain ⟨k, v⟩ := p
    have hk := encHead_length_pos 0 k
    have hv := encHead_length_pos 0 v
    simp only [encPairSeq, List.length_append, List.length_cons]
    simp only [encUInt] at *
    omega

theorem encEnvelopePayload_length_lb (bb : List Nat) (cm : List (Nat × Nat))
    (mi si ph : List Nat) :
    6 + 2 * cm.length + mi.length + si.length ≤ (encEnvelopePayload bb cm mi si ph).length := by
  have h0 := encHead_length_pos 4 5
  have h1 := encHead_length_pos 2 bb.length
  have h2 := encHead_length_pos 5 cm.length
  have h3 := encHead_length_pos 4 mi.length
  have h4 := encHead_length_pos 4 si.length
  have h5 := encHead_length_pos 2 ph.length
  have h6 := encUIntSeq_length_ge mi
  have h7 := encUIntSeq_length_ge si
  have h8 := encPairSeq_length_ge cm
  simp only [encEnvelopePayload, encBytesItem, encUIntMap, encUIntArray,
    List.length_append]
  omega

/-- `cborg.decode` round trip for envelope payloads: the entry-point fuel
`length + 1` is always sufficient. -/
theorem cborgDecode_encEnvelopePayload (bb ph : List Nat) (cm : List (Nat × Nat))
    (mi si : List Nat)
    (hbb : bb.length < 18446744073709551616) (hph : ph.length < 18446744073709551616)
    (hcm : ∀ p ∈ cm, p.1 < 18446744073709551616 ∧ p.2 < 18446744073709551616)
    (hcml : cm.length < 18446744073709551616)
    (hmi : ∀ x ∈ mi, x < 18446744073709551616) (hmil : mi.length < 18446744073709551616)
    (hsi : ∀ x ∈ si, x < 18446744073709551616) (hsil : si.length < 18446744073709551616) :
    cborgDecode (encEnvelopePayload bb cm mi si ph) =
      .ok (envelopeCborValue bb cm mi si ph) := by
  have hlb := encEnvelopePayload_length_lb bb cm mi si ph
  obtain ⟨g, hg⟩ : ∃ g, (encEnvelopePayload bb cm mi si ph).length + 1 = g + 6 :=
    ⟨(encEnvelopePayload bb cm mi si ph).length - 5, by omega⟩
  have hmain := dec_envelope_payload bb ph cm mi si [] g hbb hph hcm hcml hmi hmil hsi hsil
    (by omega) (by omega) (by omega)
  rw [List.append_nil] at hmain
  unfold cborgDecode
  rw [hg, hmain]

/-! ## `src/lib/proofValue.js` — the proof envelope codec

`parseDisclosureProofValue` is translated clause by clause.  JavaScript
values that may or may not be strings are modelled by `JsVal`; the
`try/catch` wrapper that rethrows every failure as
`TypeError('The proof does not include a valid "proofValue" property.')`
with the original error as `cause` is modelled by `JsError.malformedProof`
carrying the cause message. -/

/-- A JavaScript value as far as `typeof x === 'string'` is concerned. -/
inductive JsVal where
  | str (s : String)
  | other
deriving DecidableEq

/-- Errors surfaced by the embedded operations. -/
inductive JsError where
  | malformedProof (cause : String)
  | resolution (msg : String)
  | structural (msg : String)
  | external (msg : String)
deriving DecidableEq

/-- The decoded disclosure-proof parameters (`params` in the source). -/
structure ProofParams where
  bbsProof : List Nat
  labelMap : List (String × String)
  mandatoryIndexes : List Int
  selectiveIndexes : List Int
  presentationHeader : List Nat
deriving DecidableEq

/-- `CBOR_PREFIX_DERIVED = new Uint8Array([0xd9, 0x5d, 0x03])`. -/
def CBOR_PREFIX_DERIVED : List Nat := [217, 93, 3]

/-- JavaScript `Map.prototype.set` on an association list keyed by `Int`:
overwrite in place if the key exists, else append. -/
def mapUpsert (m : List (Int × Int)) (k v : Int) : List (Int × Int) :=
  if m.any (fun p => p.1 == k) then m.map (fun p => if p.1 == k then (k, v) else p)
  else m ++ [(k, v)]

/-- The JavaScript `Map` produced by `cborg.decode({useMaps: true})` from a
wire-order CBOR map entry list (later duplicates overwrite earlier keys). -/
def jsMapOfList (l : List (Int × Int)) : List (Int × Int) :=
  l.foldl (fun m p => mapUpsert m p.1 p.2) []

/-- JavaScript `Map.prototype.set` on a string-keyed association list. -/
def strMapUpsert (m : List (String × String)) (k v : String) : List (String × String) :=
  if m.any (fun p => p.1 == k) then m.map (fun p => if p.1 == k then (k, v) else p)
  else m ++ [(k, v)]

/-- `_decompressLabelMap`: expand integer pairs `(k, v)` to string pairs
`("c14n" + k, "b" + v)` through a fresh `Map`. -/
def decompressLabelMap (cm : List (Int × Int)) : List (String × String) :=
  cm.foldl (fun m p =>
    strMapUpsert m ("c14n" ++ intReprStr p.1) ("b" ++ intReprStr p.2)) []

/-- Convert decoded CBOR map entries to integer pairs; `none` if any entry
is not an integer pair. -/
def intPairsOfEntries : List (CborValue × CborValue) → Option (List (Int × Int))
  | [] => some []
  | (.int k, .int v) :: rest =>
    match intPairsOfEntries rest with
    | some ps => some ((k, v) :: ps)
    | none => none
  | _ :: _ => none

/-- Convert decoded CBOR items to integers; `none` if any item is not an
integer. -/
def intsOfCbor : List CborValue → Option (List Int)
  | [] => some []
  | .int n :: rest =>
    match intsOfCbor rest with
    | some ns => some (n :: ns)
    | none => none
  | _ :: _ => none

/-- Destructure the decoded CBOR value as the 5-element sequence
`[bbsProof, compressedLabelMap, mandatoryIndexes, selectiveIndexes,
presentationHeader]`, expand the label map (`_decompressLabelMap`) and
validate (`_validateDerivedProofParams`), with the source's error
messages.  Shapes on which the JavaScript destructuring or template
rendering would produce exotic values (for example a number where the map
belongs) also fail validation there; here they fail with the matching
validation message. -/
def extractParams (v : CborValue) : Except String ProofParams :=
  match v with
  | .array items =>
    match items.get? 1 with
    | some (.map entries) =>
      match intPairsOfEntries entries with
      | some ips =>
        let labelMap := decompressLabelMap (jsMapOfList ips)
        match items.get? 0 with
        | some (.bytes bb) =>
          match items.get? 2 with
          | some (.array miv) =>
            match intsOfCbor miv with
            | some mi =>
              match items.get? 3 with
              | some (.array siv) =>
                match intsOfCbor siv with
                | some si =>
                  match items.get? 4 with
                  | some (.bytes ph) =>
                    .ok ⟨bb, labelMap, mi, si, ph⟩
                  | _ => .error "\"presentationHeader\" must be a Uint8Array."
                | none => .error "\"selectiveIndexes\" must be an array of integers."
              | _ => .error "\"selectiveIndexes\" must be an array of integers."
            | none => .error "\"mandatoryIndexes\" must be an array of integers."
          | _ => .error "\"mandatoryIndexes\" must be an array of integers."
        | _ => .error "\"bbsProof\" must be a Uint8Array."
      | none => .error "\"labelMap\" must be a Map of strings to strings."
    | _ => .error "compressedLabelMap.entries is not a function"
  | _ => .error "proofValue is not iterable"

/-- The body of `parseDisclosureProofValue` (inside the `try`). -/
def parseDisclosureProofValueInner (proofValue : Option JsVal) : Except String ProofParams :=
  match proofValue with
  | some (.str s) =>
    if s.data.head? = some 'u' then
      match b64DecodeChars s.data.tail with
      | some bytes =>
        if startsWithBytes bytes CBOR_PREFIX_DERIVED then
          match cborgDecode (bytes.drop CBOR_PREFIX_DERIVED.length) with
          | .ok v => extractParams v
          | .error e => .error e
        else .error "\"proof.proofValue\" must be a derived proof."
      | none => .error "invalid base64url character"
    else .error "Only base64url multibase encoding is supported."
  | _ => .error "\"proof.proofValue\" must be a string."

/-- `parseDisclosureProofValue`: the `try/catch` wraps every failure in a
`TypeError` (`MalformedProofError`) carrying the underlying cause. -/
def parseDisclosureProofValue (proofValue : Option JsVal) : Except JsError ProofParams :=
  match parseDisclosureProofValueInner proofValue with
  | .ok p => .ok p
  | .error cause => .error (.malformedProof cause)

/-! ## The envelope encoder

The serializer for derived proof values lives in the external
`bbs-2023-cryptosuite` collaborator, not under this repository's sources. -/

/-- Strip an expected literal character sequence from the front of a
character list. -/
def dropLit : List Char → List Char → Option (List Char)
  | [], cs => some cs
  | l :: ls, c :: cs => if c = l then dropLit ls cs else none
  | _ :: _, [] => none

/-- Modelled from the spec: the label-map compression half of §4.4/§6 (the
serializer itself is an external collaborator).  Inverts the fixed naming
rule `k ↦ "c14n{k}", v ↦ "b{v}"`; `none` when an entry is not of that
canonical shape. -/
def compressLabelMap : List (String × String) → Option (List (Int × Int))
  | [] => some []
  | (k, v) :: rest =>
    match dropLit "c14n".data k.data with
    | some ks =>
      match parseNatStrict ks with
      | some ki =>
        match dropLit "b".data v.data with
        | some vs =>
          match parseNatStrict vs with
          | some vi =>
            match compressLabelMap rest with
            | some ps => some ((Int.ofNat ki, Int.ofNat vi) :: ps)
            | none => none
          | none => none
        | none => none
      | none => none
    | none => none

/-- Modelled from the spec: the §4.4/§6 wire format
`'u' + base64url(3-byte tag + CBOR([bbsProof, compressedLabelMap,
mandatoryIndexes, selectiveIndexes, presentationHeader]))`, produced by the
external serializer collaborator. -/
def encodeDisclosureProofValue (e : ProofParams) : Option String :=
  match compressLabelMap e.labelMap with
  | some cm =>
    some (String.mk ('u' :: b64EncodeBytes (CBOR_PREFIX_DERIVED ++
      encEnvelopePayload e.bbsProof (cm.map (fun p => (p.1.toNat, p.2.toNat)))
        (e.mandatoryIndexes.map Int.toNat) (e.selectiveIndexes.map Int.toNat)
        e.presentationHeader)))
  | none => none

/-- A derived-proof envelope the external serializer can produce: binary
fields are byte lists, index arrays are non-negative integers within
JavaScript's safe-integer range, and the label map is the expansion of a
compressed map with pairwise-distinct keys. -/
def validEnvelope (e : ProofParams) : Prop :=
  (∀ x ∈ e.bbsProof, x < 256) ∧ e.bbsProof.length < 18446744073709551616 ∧
  (∀ x ∈ e.presentationHeader, x < 256) ∧
  e.presentationHeader.length < 18446744073709551616 ∧
  (∀ i ∈ e.mandatoryIndexes, 0 ≤ i ∧ i < 9007199254740992) ∧
  e.mandatoryIndexes.length < 18446744073709551616 ∧
  (∀ i ∈ e.selectiveIndexes, 0 ≤ i ∧ i < 9007199254740992) ∧
  e.selectiveIndexes.length < 18446744073709551616 ∧
  ∃ cm : List (Int × Int),
    (∀ p ∈ cm, 0 ≤ p.1 ∧ p.1 < 9007199254740992 ∧ 0 ≤ p.2 ∧ p.2 < 9007199254740992) ∧
    (cm.map Prod.fst).Nodup ∧ cm.length < 18446744073709551616 ∧
    e.labelMap = decompressLabelMap cm

theorem dropLit_append : ∀ (lit rest : List Char), dropLit lit (lit ++ rest) = some rest := by
  intro lit
  induction lit with
  | nil => intro rest; rfl
  | cons l ls ih =>
    intro rest
    show (if l = l then dropLit ls (ls ++ rest) else none) = some rest
    rw [if_pos rfl]
    exact ih rest

theorem intPairsOfEntries_cborPairs (cm : List (Nat × Nat)) :
    intPairsOfEntries (cborPairsOfPairs cm) =
      some (cm.map (fun p => (Int.ofNat p.1, Int.ofNat p.2))) := by
  induction cm with
  | nil => rfl
  | cons p rest ih =>
    obtain ⟨k, v⟩ := p
    simp only [cborPairsOfPairs, List.map_cons] at *
    show (match intPairsOfEntries
        (List.map (fun p => (CborValue.int (Int.ofNat p.1), CborValue.int (Int.ofNat p.2)))
          rest) with
      | some ps => some ((Int.ofNat k, Int.ofNat v) :: ps)
      | none => none) = _
    rw [ih]

theorem intsOfCbor_cborInts (xs : List Nat) :
    intsOfCbor (cborIntsOfNats xs) = some (xs.map Int.ofNat) := by
  induction xs with
  | nil => rfl
  | cons x rest ih =>
    simp only [cborIntsOfNats, List.map_cons] at *
    show (match intsOfCbor (List.map (fun y => CborValue.int (Int.ofNat y)) rest) with
      | some ns => some (Int.ofNat x :: ns)
      | none => none) = _
    rw [ih]

theorem natReprChars_injective (a b : Nat) (h : natReprChars a = natReprChars b) :
    a = b := by
  have ha := parseNatStrict_natReprChars a
  have hb := parseNatStrict_natReprChars b
  rw [h] at ha
  rw [ha] at hb
  exact (Option.some.injEq _ _).mp hb

theorem intReprStr_injective (a b : Int) (h : intReprStr a = intReprStr b) : a = b := by
  have hdig : ∀ n : Nat, ∀ c, (natReprChars n).head? = some c → isDigitChar c = true := by
    intro n c hc
    have hall := natReprChars_all_digits n
    rw [List.all_eq_true] at hall
    exact hall c (List.mem_of_mem_head? hc)
  have hmk : ∀ l1 l2 : List Char, String.mk l1 = String.mk l2 → l1 = l2 := by
    intro l1 l2 hh
    injection hh
  unfold intReprStr at h
  split_ifs at h with h1 h2
  · have := hmk _ _ h
    have h3 : a.natAbs = b.natAbs := natReprChars_injective _ _ (by injection this)
    omega
  · exfalso
    unfold natReprStr at h
    have := hmk _ _ h
    obtain ⟨c, rest, hcr⟩ := List.exists_cons_of_ne_nil (natReprChars_ne_nil b.toNat)
    rw [hcr] at this
    have hc : isDigitChar c = true := hdig b.toNat c (by rw [hcr]; rfl)
    have : '-' = c := by injection this
    rw [← this] at hc
    exact absurd hc (by decide)
  · exfalso
    unfold natReprStr at h
    have := hmk _ _ h
    obtain ⟨c, rest, hcr⟩ := List.exists_cons_of_ne_nil (natReprChars_ne_nil a.toNat)
    rw [hcr] at this
    have hc : isDigitChar c = true := hdig a.toNat c (by rw [hcr]; rfl)
    have : c = '-' := by injection this
    rw [this] at hc
    exact absurd hc (by decide)
  · unfold natReprStr at h
    have := hmk _ _ h
    have h3 : a.toNat = b.toNat := natReprChars_injective _ _ this
    omega

theorem foldl_mapUpsert_append :
    ∀ (l acc : List (Int × Int)), ((acc ++ l).map Prod.fst).Nodup →
      l.foldl (fun m p => mapUpsert m p.1 p.2) acc = acc ++ l := by
  intro l
  induction l with
  | nil => intro acc _; simp
  | cons p rest ih =>
    intro acc hnd
    obtain ⟨k, v⟩ := p
    have hk : k ∉ acc.map Prod.fst := by
      intro hmem
      rw [List.map_append] at hnd
      exact (List.nodup_append.mp hnd).2.2 hmem (by simp)
    have hany : acc.any (fun p => p.1 == k) = false := by
      rw [List.any_eq_false]
      intro x hx hbeq
      exact hk (List.mem_map.mpr ⟨x, hx, eq_of_beq hbeq⟩)
    have hup : mapUpsert acc k v = acc ++ [(k, v)] := by
      rw [mapUpsert, if_neg (by rw [hany]; simp)]
    rw [List.foldl_cons]
    show List.foldl (fun m p => mapUpsert m p.1 p.2) (mapUpsert acc k v) rest = _
    rw [hup, ih (acc ++ [(k, v)]) (by simpa using hnd)]
    simp

/-- A CBOR map whose keys are pairwise distinct is unchanged by the
`Map`-construction pass. -/
theorem jsMapOfList_nodup (l : List (Int × Int)) (h : (l.map Prod.fst).Nodup) :
    jsMapOfList l = l := by
  have := foldl_mapUpsert_append l [] (by simpa using h)
  simpa [jsMapOfList] using this

theorem foldl_strMapUpsert_append (key val : Int × Int → String) :
    ∀ (l : List (Int × Int)) (acc : List (String × String)),
      (acc.map Prod.fst ++ l.map key).Nodup →
      l.foldl (fun m p => strMapUpsert m (key p) (val p)) acc =
        acc ++ l.map (fun p => (key p, val p)) := by
  intro l
  induction l with
  | nil => intro acc _; simp
  | cons p rest ih =>
    intro acc hnd
    have hk : key p ∉ acc.map Prod.fst := by
      intro hmem
      exact (List.nodup_append.mp hnd).2.2 hmem (by simp)
    have hany : acc.any (fun q => q.1 == key p) = false := by
      rw [List.any_eq_false]
      intro x hx hbeq
      exact hk (List.mem_map.mpr ⟨x, hx, eq_of_beq hbeq⟩)
    have hup : strMapUpsert acc (key p) (val p) = acc ++ [(key p, val p)] := by
      rw [strMapUpsert, if_neg (by rw [hany]; simp)]
    rw [List.foldl_cons]
    show List.foldl (fun m q => strMapUpsert m (key q) (val q))
      (strMapUpsert acc (key p) (val p)) rest = _
    rw [hup, ih (acc ++ [(key p, val p)]) (by simpa using hnd)]
    simp

theorem c14n_key_injective :
    Function.Injective (fun k : Int => "c14n" ++ intReprStr k) := by
  intro a b h
  simp only at h
  have hd : ("c14n" ++ intReprStr a).data = ("c14n" ++ intReprStr b).data :=
    congrArg String.data h
  rw [String.data_append, String.data_append] at hd
  have := (List.append_right_inj _).mp hd
  exact intReprStr_injective a b (String.ext this)

/-- With pairwise-distinct keys, `_decompressLabelMap` is exactly the
syntactic per-entry expansion. -/
theorem decompressLabelMap_eq_map (cm : List (Int × Int))
    (h : (cm.map Prod.fst).Nodup) :
    decompressLabelMap cm =
      cm.map (fun p => ("c14n" ++ intReprStr p.1, "b" ++ intReprStr p.2)) := by
  have hkeys : (cm.map (fun p : Int × Int => "c14n" ++ intReprStr p.1)).Nodup := by
    have : cm.map (fun p : Int × Int => "c14n" ++ intReprStr p.1) =
        (cm.map Prod.fst).map (fun k => "c14n" ++ intReprStr k) := by
      rw [List.map_map]
      rfl
    rw [this]
    exact h.map c14n_key_injective
  have := foldl_strMapUpsert_append (fun p => "c14n" ++ intReprStr p.1)
    (fun p => "b" ++ intReprStr p.2) cm [] (by simpa using hkeys)
  simpa [decompressLabelMap] using this

theorem compressLabelMap_map :
    ∀ cm : List (Int × Int), (∀ p ∈ cm, 0 ≤ p.1 ∧ 0 ≤ p.2) →
      compressLabelMap
        (cm.map (fun p => ("c14n" ++ intReprStr p.1, "b" ++ intReprStr p.2))) = some cm := by
  intro cm
  induction cm with
  | nil => intro _; rfl
  | cons p rest ih =>
    intro hb
    obtain ⟨k, v⟩ := p
    obtain ⟨hk, hv⟩ := hb (k, v) (List.mem_cons_self _ _)
    have hkrepr : intReprStr k = natReprStr k.toNat := by
      rw [intReprStr, if_neg (by omega)]
    have hvrepr : intReprStr v = natReprStr v.toNat := by
      rw [intReprStr, if_neg (by omega)]
    have hkdata : ("c14n" ++ intReprStr k).data = "c14n".data ++ natReprChars k.toNat := by
      rw [String.data_append, hkrepr]
      rfl
    have hvdata : ("b" ++ intReprStr v).data = "b".data ++ natReprChars v.toNat := by
      rw [String.data_append, hvrepr]
      rfl
    simp only [List.map_cons, compressLabelMap]
    rw [hkdata, dropLit_append, hvdata, dropLit_append]
    simp only [parseNatStrict_natReprChars,
      ih (fun q hq => hb q (List.mem_cons_of_mem _ hq))]
    simp only [Option.some.injEq, List.cons.injEq, and_true, Prod.mk.injEq]
    exact ⟨Int.toNat_of_nonneg hk, Int.toNat_of_nonneg hv⟩

theorem encHead_all_lt (m n : Nat) (hm : m < 8) : ∀ b ∈ encHead m n, b < 256 := by
  intro b hb
  unfold encHead at hb
  split_ifs at hb with h1 h2 h3 h4
  · simp only [List.mem_singleton] at hb
    omega
  · simp only [List.mem_cons, List.not_mem_nil, or_false] at hb
    rcases hb with rfl | rfl <;> omega
  · simp only [List.mem_cons, List.not_mem_nil, or_false] at hb
    rcases hb with rfl | rfl | rfl <;> omega
  · simp only [List.mem_cons, List.not_mem_nil, or_false] at hb
    rcases hb with rfl | rfl | rfl | rfl | rfl <;> omega
  · simp only [List.mem_cons, List.not_mem_nil, or_false] at hb
    rcases hb with rfl | rfl | rfl | rfl | rfl | rfl | rfl | rfl | rfl <;> omega

theorem encUIntSeq_all_lt (xs : List Nat) : ∀ b ∈ encUIntSeq xs, b < 256 := by
  induction xs with
  | nil => intro b hb; simp [encUIntSeq] at hb
  | cons x rest ih =>
    intro b hb
    simp only [encUIntSeq, List.mem_append] at hb
    rcases hb with hb | hb
    · exact encHead_all_lt 0 x (by omega) b hb
    · exact ih b hb

theorem encPairSeq_all_lt (m : List (Nat × Nat)) : ∀ b ∈ encPairSeq m, b < 256 := by
  induction m with
  | nil => intro b hb; simp [encPairSeq] at hb
  | cons p rest ih =>
    intro b hb
    obtain ⟨k, v⟩ := p
    simp only [encPairSeq, List.mem_append] at hb
    rcases hb with (hb | hb) | hb
    · exact encHead_all_lt 0 k (by omega) b hb
    · exact encHead_all_lt 0 v (by omega) b hb
    · exact ih b hb

theorem encBytesItem_all_lt (bs : List Nat) (h : ∀ x ∈ bs, x < 256) :
    ∀ b ∈ encBytesItem bs, b < 256 := by
  intro b hb
  simp only [encBytesItem, List.mem_append] at hb
  rcases hb with hb | hb
  · exact encHead_all_lt 2 bs.length (by omega) b hb
  · exact h b hb

theorem encEnvelopePayload_all_lt (bb : List Nat) (cm : List (Nat × Nat))
    (mi si ph : List Nat) (hbb : ∀ x ∈ bb, x < 256) (hph : ∀ x ∈ ph, x < 256) :
    ∀ b ∈ encEnvelopePayload bb cm mi si ph, b < 256 := by
  intro b hb
  simp only [encEnvelopePayload, encUIntMap, encUIntArray, List.mem_append] at hb
  rcases hb with hb | hb | (hb | hb) | (hb | hb) | (hb | hb) | hb
  · exact encHead_all_lt 4 5 (by omega) b hb
  · exact encBytesItem_all_lt bb hbb b hb
  · exact encHead_all_lt 5 cm.length (by omega) b hb
  · exact encPairSeq_all_lt cm b hb
  · exact encHead_all_lt 4 mi.length (by omega) b hb
  · exact encUIntSeq_all_lt mi b hb
  · exact encHead_all_lt 4 si.length (by omega) b hb
  · exact encUIntSeq_all_lt si b hb
  · exact encBytesItem_all_lt ph hph b hb

theorem map_toNat_ofNat (l : List Int) (h : ∀ i ∈ l, 0 ≤ i) :
    (l.map Int.toNat).map Int.ofNat = l := by
  rw [List.map_map]
  conv_rhs => rw [← List.map_id l]
  apply List.map_congr_left
  intro a ha
  exact Int.toNat_of_nonneg (h a ha)

theorem map_pair_toNat_ofNat (l : List (Int × Int)) (h : ∀ p ∈ l, 0 ≤ p.1 ∧ 0 ≤ p.2) :
    (l.map (fun p => (p.1.toNat, p.2.toNat))).map
      (fun p => (Int.ofNat p.1, Int.ofNat p.2)) = l := by
  rw [List.map_map]
  conv_rhs => rw [← List.map_id l]
  apply List.map_congr_left
  intro a ha
  simp only [Function.comp_apply, id]
  obtain ⟨h1, h2⟩ := h a ha
  obtain ⟨x, y⟩ := a
  simp only [Prod.mk.injEq]
  exact ⟨Int.toNat_of_nonneg h1, Int.toNat_of_nonneg h2⟩

theorem extractParams_envelope (bb : List Nat) (cmN : List (Nat × Nat))
    (miN siN ph : List Nat) :
    extractParams (envelopeCborValue bb cmN miN siN ph) =
      .ok ⟨bb,
        decompressLabelMap (jsMapOfList
          (cmN.map (fun p => (Int.ofNat p.1, Int.ofNat p.2)))),
        miN.map Int.ofNat, siN.map Int.ofNat, ph⟩ := by
  unfold extractParams envelopeCborValue
  simp only [List.get?, intPairsOfEntries_cborPairs, intsOfCbor_cborInts]

/-- The round trip at the heart of §8: parsing the encoded form of a valid
envelope returns the envelope, label-map compression/expansion included. -/
theorem parse_encode_roundtrip (e : ProofParams) (hv : validEnvelope e) :
    ∃ s, encodeDisclosureProofValue e = some s ∧
      parseDisclosureProofValue (some (.str s)) = .ok e := by
  obtain ⟨hbb, hbbl, hph, hphl, hmi, hmil, hsi, hsil, cm, hcmb, hcmnd, hcml, hlm⟩ := hv
  have hcompress : compressLabelMap e.labelMap = some cm := by
    rw [hlm, decompressLabelMap_eq_map cm hcmnd]
    exact compressLabelMap_map cm (fun p hp => ⟨(hcmb p hp).1, (hcmb p hp).2.2.1⟩)
  refine ⟨_, by rw [encodeDisclosureProofValue, hcompress], ?_⟩
  have hbytes : ∀ x ∈ CBOR_PREFIX_DERIVED ++
      encEnvelopePayload e.bbsProof (cm.map (fun p => (p.1.toNat, p.2.toNat)))
        (e.mandatoryIndexes.map Int.toNat) (e.selectiveIndexes.map Int.toNat)
        e.presentationHeader, x < 256 := by
    intro x hx
    rcases List.mem_append.mp hx with hx | hx
    · simp only [CBOR_PREFIX_DERIVED, List.mem_cons, List.not_mem_nil, or_false] at hx
      rcases hx with rfl | rfl | rfl <;> omega
    · exact encEnvelopePayload_all_lt _ _ _ _ _ hbb hph x hx
  have hdecode := cborgDecode_encEnvelopePayload e.bbsProof e.presentationHeader
    (cm.map (fun p => (p.1.toNat, p.2.toNat)))
    (e.mandatoryIndexes.map Int.toNat) (e.selectiveIndexes.map Int.toNat)
    hbbl hphl
    (by
      intro p hp
      rcases List.mem_map.mp hp with ⟨q, hq, rfl⟩
      have := hcmb q hq
      constructor
      · omega
      · omega)
    (by simpa using hcml)
    (by
      intro x hx
      rcases List.mem_map.mp hx with ⟨i, hi, rfl⟩
      have := hmi i hi
      omega)
    (by simpa using hmil)
    (by
      intro x hx
      rcases List.mem_map.mp hx with ⟨i, hi, rfl⟩
      have := hsi i hi
      omega)
    (by simpa using hsil)
  show parseDisclosureProofValue _ = _
  unfold parseDisclosureProofValue
  have hinner : parseDisclosureProofValueInner (some (.str (String.mk ('u' ::
      b64EncodeBytes (CBOR_PREFIX_DERIVED ++
        encEnvelopePayload e.bbsProof (cm.map (fun p => (p.1.toNat, p.2.toNat)))
          (e.mandatoryIndexes.map Int.toNat) (e.selectiveIndexes.map Int.toNat)
          e.presentationHeader))))) = .ok e := by
    have hred : parseDisclosureProofValueInner (some (.str (String.mk ('u' ::
        b64EncodeBytes (CBOR_PREFIX_DERIVED ++
          encEnvelopePayload e.bbsProof (cm.map (fun p => (p.1.toNat, p.2.toNat)))
            (e.mandatoryIndexes.map Int.toNat) (e.selectiveIndexes.map Int.toNat)
            e.presentationHeader))))) =
        match b64DecodeChars (b64EncodeBytes (CBOR_PREFIX_DERIVED ++
          encEnvelopePayload e.bbsProof (cm.map (fun p => (p.1.toNat, p.2.toNat)))
            (e.mandatoryIndexes.map Int.toNat) (e.selectiveIndexes.map Int.toNat)
            e.presentationHeader)) with
        | some bytes =>
          if startsWithBytes bytes CBOR_PREFIX_DERIVED then
            match cborgDecode (bytes.drop CBOR_PREFIX_DERIVED.length) with
            | .ok v => extractParams v
            | .error msg => .error msg
          else .error "\"proof.proofValue\" must be a derived proof."
        | none => .error "invalid base64url character" := rfl
    rw [hred, b64_roundtrip _ hbytes]
    show (if startsWithBytes (CBOR_PREFIX_DERIVED ++ _) CBOR_PREFIX_DERIVED then _ else _) = _
    rw [startsWithBytes_append]
    show (match cborgDecode ((CBOR_PREFIX_DERIVED ++
      encEnvelopePayload e.bbsProof (cm.map (fun p => (p.1.toNat, p.2.toNat)))
        (e.mandatoryIndexes.map Int.toNat) (e.selectiveIndexes.map Int.toNat)
        e.presentationHeader).drop CBOR_PREFIX_DERIVED.length) with
      | .ok v => extractParams v
      | .error msg => (.error msg : Except String ProofParams)) = .ok e
    rw [List.drop_left, hdecode]
    show extractParams (envelopeCborValue _ _ _ _ _) = .ok e
    rw [extractParams_envelope]
    rw [map_pair_toNat_ofNat cm (fun p hp => ⟨(hcmb p hp).1, (hcmb p hp).2.2.1⟩)]
    rw [jsMapOfList_nodup cm hcmnd, ← hlm]
    rw [map_toNat_ofNat _ (fun i hi => (hmi i hi).1),
      map_toNat_ofNat _ (fun i hi => (hsi i hi).1)]
  rw [hinner]

/-! ## `src/lib/verify.js` — the multi-message verify-data builder

`_createVerifyData` strips the proof, starts `hashCanonizedProof` (its
rejection captured by `.catch(e => e)`), parses the disclosure proof value,
canonicalizes with the label map, partitions the statements by position,
hashes the mandatory partition, awaits the proof hash and rethrows it if it
is an `Error`.  The external `hashCanonizedProof`,
`createLabelMapFunction`/`labelReplacementCanonicalizeJsonLd` and
`hashMandatory` collaborators are injected: the first as the settled
outcome of its promise, the other two as functions of the only inputs the
call site varies (the label map, the mandatory partition). -/

/-- The partition loop of `_createVerifyData` (steps over `nquads.entries()`
pushing each statement to `mandatory` or `nonMandatory`). -/
def partitionGo (mandatoryIndexes : List Int) : Nat → List String → List String × List String
  | _, [] => ([], [])
  | i, nq :: rest =>
    let r := partitionGo mandatoryIndexes (i + 1) rest
    if mandatoryIndexes.contains (Int.ofNat i) then (nq :: r.1, r.2) else (r.1, nq :: r.2)

/-- Partition the canonical statements by position:
`mandatoryIndexes.includes(index)` selects the mandatory partition. -/
def partitionMandatory (mandatoryIndexes : List Int) (nquads : List String) :
    List String × List String :=
  partitionGo mandatoryIndexes 0 nquads

/-- The verify-data bundle returned by `_createVerifyData`. -/
structure VerifyData where
  bbsProof : List Nat
  proofHash : List Nat
  nonMandatory : List String
  mandatoryHash : List Nat
  selectiveIndexes : List Int
  presentationHeader : List Nat
  mandatory : List String
deriving DecidableEq

/-- `_createVerifyData`, with the overlapped proof-hash branch represented
by the settled outcome of its promise (the `.catch(e => e)` turns a
rejection into a value, and the `instanceof Error` check at the join
rethrows it). -/
def createVerifyData (proofHashResult : Except JsError (List Nat))
    (canonize : List (String × String) → Except JsError (List String))
    (hashMandatoryFn : List String → Except JsError (List Nat))
    (proofValue : Option JsVal) : Except JsError VerifyData :=
  match parseDisclosureProofValue proofValue with
  | .error e => .error e
  | .ok params =>
    match canonize params.labelMap with
    | .error e => .error e
    | .ok nquads =>
      let parts := partitionMandatory params.mandatoryIndexes nquads
      match hashMandatoryFn parts.1 with
      | .error e => .error e
      | .ok mandatoryHash =>
        match proofHashResult with
        | .error e => .error e
        | .ok proofHash =>
          .ok ⟨params.bbsProof, proofHash, parts.2, mandatoryHash,
            params.selectiveIndexes, params.presentationHeader, parts.1⟩

theorem partitionGo_eq (idx : List Int) :
    ∀ (l : List String) (i : Nat),
      partitionGo idx i l =
        (((List.enumFrom i l).filter fun p => idx.contains (Int.ofNat p.1)).map Prod.snd,
         ((List.enumFrom i l).filter fun p => !idx.contains (Int.ofNat p.1)).map Prod.snd) := by
  intro l
  induction l with
  | nil => intro i; rfl
  | cons x xs ih =>
    intro i
    show (let r := partitionGo idx (i + 1) xs;
      if idx.contains (Int.ofNat i) then (x :: r.1, r.2) else (r.1, x :: r.2)) = _
    rw [ih (i + 1)]
    by_cases hc : idx.contains (Int.ofNat i)
    · have hm : ((i : Int) ∈ idx) := by simpa using hc
      simp [List.enumFrom, List.filter_cons, hc, hm]
    · simp only [Bool.not_eq_true] at hc
      have hm : ¬((i : Int) ∈ idx) := by simpa using hc
      simp [List.enumFrom, List.filter_cons, hc, hm]

/-! ## The suite dispatcher (`index.js`): sign / verify by key family

The external cryptographic collaborators (`jsigs.sign`/`vc.issue` on one
side, `jsigs.verify`/`vc.verifyCredential` on the other) are modelled by an
injected `SigScheme`: `sign` over the stamped document with a secret key,
`verify` over the stripped document with the proof's signature and the
resolved public key, and `pub` pairing a secret key with its public
encoding.  The external verifiers report a cryptographic mismatch as a
`{verified: false}` result, never an exception, which is why `verify` is a
total `Bool` function. -/

/-- A verification method entry of a CID document. -/
structure VerificationMethod where
  id : String
  controller : String
  publicKeyMultibase : String
deriving DecidableEq

/-- A CID document. -/
structure CIDDoc where
  id : String
  verificationMethod : List VerificationMethod
  authentication : List String
  assertionMethod : List String
  capabilityInvocation : List String
  capabilityDelegation : List String
deriving DecidableEq

/-- A credential document (claim graph abstracted to `claims`). -/
structure CredDoc where
  issuer : Option String
  id : Option String
  credentialSubjectId : Option String
  validFrom : Option String
  validUntil : Option String
  claims : String
deriving DecidableEq

/-- A data-integrity proof as far as dispatch is concerned. -/
structure SigProof where
  verificationMethod : String
  mandatoryPointers : List String
  signature : String
deriving DecidableEq

/-- A signed credential: stamped document plus attached proof. -/
structure SignedCred where
  doc : CredDoc
  proof : SigProof
deriving DecidableEq

/-- An external signature scheme collaborator. -/
structure SigScheme where
  sign : CredDoc → String → String
  pub : String → String
  verify : CredDoc → String → String → Bool

/-- Soundness of an external scheme: verifying a signature made with a
secret key against the paired public key succeeds. -/
def SigScheme.Correct (s : SigScheme) : Prop :=
  ∀ d k, s.verify d (s.sign d k) (s.pub k) = true

/-- JavaScript `String.prototype.startsWith` on character lists. -/
def charsStartWith : List Char → List Char → Bool
  | _, [] => true
  | [], _ :: _ => false
  | c :: cs, p :: ps => c == p && charsStartWith cs ps

/-- `verificationMethod.publicKeyMultibase.startsWith('zUC7')`: the key
classifier; anything else routes to the single-message family. -/
def isBbsKey (vm : VerificationMethod) : Bool :=
  charsStartWith vm.publicKeyMultibase.data "zUC7".data

/-- JavaScript truthiness of an optional string field (absent and the empty
string are falsy). -/
def truthyStr : Option String → Bool
  | none => false
  | some s => s != ""

/-- The mandatory-pointer computation in the BBS branch of
`signCredential`: `['/issuer']` plus `'/validFrom'`/`'/validUntil'` when
those claims are truthy. -/
def entryPointers (document : CredDoc) : List String :=
  ["/issuer"] ++ (if truthyStr document.validFrom then ["/validFrom"] else []) ++
    (if truthyStr document.validUntil then ["/validUntil"] else [])

/-- JavaScript object property lookup on an association list. -/
def lookupStr (m : List (String × String)) (k : String) : Option String :=
  (m.find? (fun p => p.1 == k)).map Prod.snd

/-- The document mutations at the top of `signCredential`: stamp
`issuer = {id: cid.id}` and optionally set the credential id and the
credential subject id. -/
def stampDocument (cid : CIDDoc) (document : CredDoc)
    (credentialId subjectId : Option String) : CredDoc :=
  let document := { document with issuer := some cid.id }
  let document := match credentialId with
    | some c => { document with id := some c }
    | none => document
  match subjectId with
  | some sid => { document with credentialSubjectId := some sid }
  | none => document

/-- `signCredential`: stamp `issuer`, optionally set the credential and
subject ids, resolve the key, classify by prefix and delegate to the
matching external signer.  The BBS branch bakes `entryPointers` into the
proof (`createSignCryptosuite({mandatoryPointers})`). -/
def signCredential (bbs ed : SigScheme) (cid : CIDDoc)
    (privateKeys : List (String × String)) (document : CredDoc) (keyId : String)
    (credentialId subjectId : Option String) : Except JsError SignedCred :=
  let document := stampDocument cid document credentialId subjectId
  match cid.verificationMethod.find? (fun vm => vm.id == keyId) with
  | none => .error (.resolution ("Key ID " ++ keyId ++ " not found in CID document"))
  | some vm =>
    match lookupStr privateKeys keyId with
    | none => .error (.resolution ("Private key for " ++ keyId ++ " not found"))
    | some sk =>
      if isBbsKey vm then
        .ok ⟨document, ⟨vm.id, entryPointers document, bbs.sign document sk⟩⟩
      else
        .ok ⟨document, ⟨vm.id, [], ed.sign document sk⟩⟩

/-- `verifyCredential`: resolve the method referenced by the proof
(`getVerificationMethod`, throwing if absent), classify identically, read
`document.issuer.id` (throwing if the issuer is absent) and delegate to the
matching external verifier, returning its boolean result. -/
def verifyCredential (bbs ed : SigScheme) (cid : CIDDoc) (sc : SignedCred) :
    Except JsError Bool :=
  match cid.verificationMethod.find? (fun vm => vm.id == sc.proof.verificationMethod) with
  | none => .error (.resolution ("Verification method " ++ sc.proof.verificationMethod ++
      " not found in CID document"))
  | some vm =>
    match sc.doc.issuer with
    | none => .error (.structural "Cannot read properties of undefined (reading 'id')")
    | some _ =>
      if isBbsKey vm then .ok (bbs.verify sc.doc sc.proof.signature vm.publicKeyMultibase)
      else .ok (ed.verify sc.doc sc.proof.signature vm.publicKeyMultibase)

/-! ## The single-message verify-data path (`preprocessEd25519Verification`) -/

/-- The `concat` helper: a fresh `Uint8Array` of combined length, `b1`
written at offset 0 and `b2` at offset `b1.length`. -/
def uint8ArrayConcat (b1 b2 : List Nat) : List Nat :=
  List.ofFn (fun i : Fin (b1.length + b2.length) =>
    if h : i.val < b1.length then b1.get ⟨i.val, h⟩
    else b2.get ⟨i.val - b1.length, by omega⟩)

/-- The single message built by `preprocessEd25519Verification`: digest the
canonicalized proof and the canonicalized stripped document separately and
concatenate `proofHash` then `docHash`.  The canonicalizer and sha-256 are
injected collaborators. -/
def preprocessEd25519ConcatHash (digest : String → List Nat)
    (canonizeDoc : CredDoc → String) (canonizeProof : SigProof → String)
    (sc : SignedCred) : List Nat :=
  let proofHash := digest (canonizeProof sc.proof)
  let docHash := digest (canonizeDoc sc.doc)
  uint8ArrayConcat proofHash docHash

/-! ## `cid.js` — CID document generation -/

/-- The pair returned by an external key generator (`privateKeyMultibase`
for Ed25519, `secretKeyMultibase` for BBS, both modelled as the secret). -/
structure KeyGenResult where
  publicKeyMultibase : String
  secretKeyMultibase : String

/-- What `generateCID` produces, together with the ids it passed to the
external generators (observable through the generator collaborators). -/
structure CIDGenResult where
  cid : CIDDoc
  privateKeys : List (String × String)
  generatedKeyIds : List String

/-- The sequential key fragment identifier `` `${controller}#key-${i}` ``. -/
def keyFragment (controller : String) (i : Nat) : String :=
  controller ++ "#key-" ++ natReprStr i

/-- `generateCID`: the shared counter `i` is incremented once while minting
the id passed to the key generator (`` `#key-${i++}` ``) and read again,
without increment, for the published verification method id
(`` `#key-${i}` ``). -/
def generateCID (edGen bbsGen : String → KeyGenResult) (controller : String)
    (includeEd25519 includeBBS : Bool) : CIDGenResult :=
  let cid0 : CIDDoc := ⟨controller, [], [], [], [], []⟩
  let step := fun (gen : String → KeyGenResult) (st : CIDDoc × List (String × String) × List String × Nat) =>
    let (cid, pks, gens, i) := st
    let genId := keyFragment controller i
    let kp := gen genId
    let vmId := keyFragment controller (i + 1)
    let vm : VerificationMethod := ⟨vmId, controller, kp.publicKeyMultibase⟩
    (⟨cid.id, cid.verificationMethod ++ [vm], cid.authentication ++ [vmId],
      cid.assertionMethod ++ [vmId], cid.capabilityInvocation ++ [vmId],
      cid.capabilityDelegation ++ [vmId]⟩,
     pks ++ [(vmId, kp.secretKeyMultibase)], gens ++ [genId], i + 1)
  let st0 := (cid0, ([] : List (String × String)), ([] : List String), 0)
  let st1 := if includeEd25519 then step edGen st0 else st0
  let st2 := if includeBBS then step bbsGen st1 else st1
  ⟨st2.1, st2.2.1, st2.2.2.1⟩

theorem uint8ArrayConcat_eq_append (b1 b2 : List Nat) :
    uint8ArrayConcat b1 b2 = b1 ++ b2 := by
  apply List.ext_getElem
  · simp [uint8ArrayConcat]
  · intro i h1 h2
    simp only [uint8ArrayConcat, List.getElem_ofFn]
    by_cases h : i < b1.length
    · rw [dif_pos h, List.getElem_append_left h]
      simp
    · rw [dif_neg h, List.getElem_append_right (by omega)]
      simp

/-- C7: in the single-message verify-data path, the verified message is the
digest of the canonicalized proof followed by the digest of the
canonicalized stripped document, concatenated in that exact order. -/
theorem single_message_concat_order (digest : String → List Nat)
    (canonizeDoc : CredDoc → String) (canonizeProof : SigProof → String)
    (sc : SignedCred) :
    preprocessEd25519ConcatHash digest canonizeDoc canonizeProof sc =
      digest (canonizeProof sc.proof) ++ digest (canonizeDoc sc.doc) := by
  unfold preprocessEd25519ConcatHash
  exact uint8ArrayConcat_eq_append _ _

/-- C4: the multi-message verify-data builder partitions the ordered
canonical statements by position — the statement at position `i` goes to
`mandatory` exactly when `i` is a member of `mandatoryIndexes`, both
partitions preserve the canonical order (they are sublists, never
re-sorted), and together they contain every statement exactly once. -/
theorem partition_mandatory_spec (nquads : List String) (idx : List Int) :
    (partitionMandatory idx nquads).1 =
      ((nquads.enum.filter fun p => idx.contains (Int.ofNat p.1)).map Prod.snd) ∧
    (partitionMandatory idx nquads).2 =
      ((nquads.enum.filter fun p => !idx.contains (Int.ofNat p.1)).map Prod.snd) ∧
    List.Sublist (partitionMandatory idx nquads).1 nquads ∧
    List.Sublist (partitionMandatory idx nquads).2 nquads ∧
    ((partitionMandatory idx nquads).1 ++ (partitionMandatory idx nquads).2).Perm nquads := by
  have h := partitionGo_eq idx nquads 0
  have henum : List.enumFrom 0 nquads = nquads.enum := rfl
  rw [henum] at h
  have h1 : (partitionMandatory idx nquads).1 =
      ((nquads.enum.filter fun p => idx.contains (Int.ofNat p.1)).map Prod.snd) := by
    rw [partitionMandatory, h]
  have h2 : (partitionMandatory idx nquads).2 =
      ((nquads.enum.filter fun p => !idx.contains (Int.ofNat p.1)).map Prod.snd) := by
    rw [partitionMandatory, h]
  refine ⟨h1, h2, ?_, ?_, ?_⟩
  · rw [h1]
    have := (@List.filter_sublist _ (fun p => idx.contains (Int.ofNat p.1)) nquads.enum).map
      Prod.snd
    rwa [List.enum_map_snd] at this
  · rw [h2]
    have := (@List.filter_sublist _ (fun p => !idx.contains (Int.ofNat p.1)) nquads.enum).map
      Prod.snd
    rwa [List.enum_map_snd] at this
  · rw [h1, h2, ← List.map_append]
    have hperm := List.filter_append_perm (fun p => idx.contains (Int.ofNat p.1)) nquads.enum
    have := hperm.map Prod.snd
    rwa [List.enum_map_snd] at this

/-- C5: if the concurrently started proof-hash computation fails, the
failure is propagated to the caller exactly (no default hash is
substituted) and the builder never returns a result; a failure of the other
overlapped branch (proof-value decoding) is propagated likewise, so the
join preserves failure propagation from either branch. -/
theorem proof_hash_failure_propagation :
    (∀ (canonize : List (String × String) → Except JsError (List String))
       (hashMandatoryFn : List String → Except JsError (List Nat))
       (proofValue : Option JsVal) (e : JsError) (vd : VerifyData),
       createVerifyData (.error e) canonize hashMandatoryFn proofValue ≠ .ok vd) ∧
    (∀ (canonize : List (String × String) → Except JsError (List String))
       (hashMandatoryFn : List String → Except JsError (List Nat))
       (proofValue : Option JsVal) (e : JsError) (params : ProofParams)
       (nquads : List String) (mh : List Nat),
       parseDisclosureProofValue proofValue = .ok params →
       canonize params.labelMap = .ok nquads →
       hashMandatoryFn (partitionMandatory params.mandatoryIndexes nquads).1 = .ok mh →
       createVerifyData (.error e) canonize hashMandatoryFn proofValue = .error e) ∧
    (∀ (proofHashResult : Except JsError (List Nat))
       (canonize : List (String × String) → Except JsError (List String))
       (hashMandatoryFn : List String → Except JsError (List Nat))
       (proofValue : Option JsVal) (e : JsError),
       parseDisclosureProofValue proofValue = .error e →
       createVerifyData proofHashResult canonize hashMandatoryFn proofValue = .error e) := by
  refine ⟨?_, ?_, ?_⟩
  · intro canonize hashMandatoryFn proofValue e vd
    unfold createVerifyData
    cases hp : parseDisclosureProofValue proofValue with
    | error e2 => simp [hp]
    | ok params =>
      cases hc : canonize params.labelMap with
      | error e2 => simp [hp, hc]
      | ok nquads =>
        cases hh : hashMandatoryFn (partitionMandatory params.mandatoryIndexes nquads).1 with
        | error e2 => simp [hp, hc, hh]
        | ok mh => simp [hp, hc, hh]
  · intro canonize hashMandatoryFn proofValue e params nquads mh hparse hcanon hhash
    unfold createVerifyData
    simp only [hparse, hcanon, hhash]
  · intro proofHashResult canonize hashMandatoryFn proofValue e hparse
    unfold createVerifyData
    rw [hparse]

/-- A proof value with a one-byte-short tag (`[0xd9, 0x5d]`) followed by an
otherwise well-formed envelope payload. -/
def shortTagProofValue : String :=
  String.mk ('u' :: b64EncodeBytes ([217, 93] ++ encEnvelopePayload [] [] [] [] []))

/-- A proof value with a one-byte-long tag (`[0xd9, 0x5d, 0x03, 0x03]`)
followed by an otherwise well-formed envelope payload. -/
def longTagProofValue : String :=
  String.mk ('u' :: b64EncodeBytes ([217, 93, 3, 3] ++ encEnvelopePayload [] [] [] [] []))

/-- C2: `parseDisclosureProofValue` throws a `MalformedProofError` (the
wrapping `TypeError` with a cause) whenever `proofValue` is absent or not a
string, whenever its first character is not `'u'`, and whenever the
base64url-decoded bytes do not start with the exact 3-byte derived-proof
tag; a tag one byte short or one byte long is also rejected. -/
theorem proof_value_prefix_strictness :
    (∀ pv : Option JsVal, (∀ s, pv ≠ some (.str s)) →
      parseDisclosureProofValue pv =
        .error (.malformedProof "\"proof.proofValue\" must be a string.")) ∧
    (∀ s : String, s.data.head? ≠ some 'u' →
      parseDisclosureProofValue (some (.str s)) =
        .error (.malformedProof "Only base64url multibase encoding is supported.")) ∧
    (∀ (s : String) (bytes : List Nat), s.data.head? = some 'u' →
      b64DecodeChars s.data.tail = some bytes →
      startsWithBytes bytes CBOR_PREFIX_DERIVED = false →
      parseDisclosureProofValue (some (.str s)) =
        .error (.malformedProof "\"proof.proofValue\" must be a derived proof.")) ∧
    (∃ c, parseDisclosureProofValue (some (.str shortTagProofValue)) =
      .error (.malformedProof c)) ∧
    (∃ c, parseDisclosureProofValue (some (.str longTagProofValue)) =
      .error (.malformedProof c)) := by
  refine ⟨?_, ?_, ?_, ?_, ?_⟩
  · intro pv h
    match pv with
    | none => rfl
    | some .other => rfl
    | some (.str s) => exact absurd rfl (h s)
  · intro s hs
    unfold parseDisclosureProofValue parseDisclosureProofValueInner
    simp [hs]
  · intro s bytes hu hdec hsw
    unfold parseDisclosureProofValue parseDisclosureProofValueInner
    simp [hu, hdec, hsw]
  · exact ⟨_, rfl⟩
  · exact ⟨_, rfl⟩

theorem stampDocument_issuer (cid : CIDDoc) (document : CredDoc)
    (credentialId subjectId : Option String) :
    (stampDocument cid document credentialId subjectId).issuer = some cid.id := by
  unfold stampDocument
  cases credentialId <;> cases subjectId <;> rfl

theorem stampDocument_validFrom (cid : CIDDoc) (document : CredDoc)
    (credentialId subjectId : Option String) :
    (stampDocument cid document credentialId subjectId).validFrom = document.validFrom := by
  unfold stampDocument
  cases credentialId <;> cases subjectId <;> rfl

theorem stampDocument_validUntil (cid : CIDDoc) (document : CredDoc)
    (credentialId subjectId : Option String) :
    (stampDocument cid document credentialId subjectId).validUntil = document.validUntil := by
  unfold stampDocument
  cases credentialId <;> cases subjectId <;> rfl

/-- C1: signing a credential with any key present in the CID document and
verifying the result against the same CID document returns true, for both
key families, whenever the external schemes are sound and the private key
store pairs the key id with the secret matching the published public key. -/
theorem sign_then_verify (bbs ed : SigScheme) (hbbs : bbs.Correct) (hed : ed.Correct)
    (cid : CIDDoc) (privateKeys : List (String × String)) (document : CredDoc)
    (keyId : String) (credentialId subjectId : Option String)
    (vm : VerificationMethod)
    (hfind : cid.verificationMethod.find? (fun v => v.id == keyId) = some vm)
    (sk : String) (hsk : lookupStr privateKeys keyId = some sk)
    (hpk : vm.publicKeyMultibase = (if isBbsKey vm then bbs.pub sk else ed.pub sk)) :
    ∃ sc, signCredential bbs ed cid privateKeys document keyId credentialId subjectId =
        .ok sc ∧
      verifyCredential bbs ed cid sc = .ok true := by
  have hvmid : vm.id = keyId := by
    have := List.find?_some hfind
    simpa using this
  have hfind2 : cid.verificationMethod.find? (fun v => v.id == vm.id) = some vm := by
    rw [hvmid]
    exact hfind
  by_cases hb : isBbsKey vm
  · refine ⟨⟨stampDocument cid document credentialId subjectId,
      ⟨vm.id, entryPointers (stampDocument cid document credentialId subjectId),
        bbs.sign (stampDocument cid document credentialId subjectId) sk⟩⟩, ?_, ?_⟩
    · unfold signCredential
      simp only [hfind, hsk, hb, if_true]
    · unfold verifyCredential
      simp only [hfind2, stampDocument_issuer, hb, if_true]
      rw [hpk, if_pos hb, hbbs]
  · refine ⟨⟨stampDocument cid document credentialId subjectId,
      ⟨vm.id, [], ed.sign (stampDocument cid document credentialId subjectId) sk⟩⟩, ?_, ?_⟩
    · unfold signCredential
      simp only [hfind, hsk, hb]
      simp
    · unfold verifyCredential
      simp only [hfind2, stampDocument_issuer, hb]
      simp only [Bool.false_eq_true, if_false]
      rw [hpk, if_neg hb, hed]

/-- C9: `verifyCredential` never throws for a cryptographically invalid
signature — when the referenced verification method resolves and the
document has an issuer, the result is the external verifier's boolean (so
a signature mismatch is the normal value `false`); an exception occurs only
for resolution or structural problems (verification method absent, issuer
absent). -/
theorem verify_mismatch_is_boolean (bbs ed : SigScheme) (cid : CIDDoc) (sc : SignedCred) :
    (∀ vm, cid.verificationMethod.find?
        (fun v => v.id == sc.proof.verificationMethod) = some vm →
      ∀ iss, sc.doc.issuer = some iss →
      verifyCredential bbs ed cid sc =
        .ok (if isBbsKey vm then bbs.verify sc.doc sc.proof.signature vm.publicKeyMultibase
          else ed.verify sc.doc sc.proof.signature vm.publicKeyMultibase)) ∧
    (∀ e, verifyCredential bbs ed cid sc = .error e →
      cid.verificationMethod.find?
        (fun v => v.id == sc.proof.verificationMethod) = none ∨
      sc.doc.issuer = none) := by
  constructor
  · intro vm hfind iss hiss
    unfold verifyCredential
    simp only [hfind, hiss]
    split <;> rfl
  · intro e herr
    unfold verifyCredential at herr
    cases hf : cid.verificationMethod.find?
        (fun v => v.id == sc.proof.verificationMethod) with
    | none => exact Or.inl rfl
    | some vm =>
      cases hi : sc.doc.issuer with
      | none => exact Or.inr rfl
      | some iss =>
        rw [hf, hi] at herr
        by_cases hb : isBbsKey vm
        · simp [hb] at herr
        · simp [hb] at herr

/-- C6 (amended): the mandatory-pointer set baked into a MultiMessage proof
is `{'/issuer'}` plus `'/validFrom'` when the document carries a truthy
(non-empty) `validFrom` claim and `'/validUntil'` when it carries a truthy
`validUntil` claim, and nothing else. -/
theorem bbs_mandatory_pointer_set (bbs ed : SigScheme) (cid : CIDDoc)
    (privateKeys : List (String × String)) (document : CredDoc) (keyId : String)
    (credentialId subjectId : Option String) (vm : VerificationMethod)
    (hfind : cid.verificationMethod.find? (fun v => v.id == keyId) = some vm)
    (hb : isBbsKey vm = true)
    (sk : String) (hsk : lookupStr privateKeys keyId = some sk) :
    ∃ sc, signCredential bbs ed cid privateKeys document keyId credentialId subjectId =
        .ok sc ∧
      ∀ p, p ∈ sc.proof.mandatoryPointers ↔
        (p = "/issuer" ∨
         (p = "/validFrom" ∧ truthyStr document.validFrom = true) ∨
         (p = "/validUntil" ∧ truthyStr document.validUntil = true)) := by
  refine ⟨⟨stampDocument cid document credentialId subjectId,
    ⟨vm.id, entryPointers (stampDocument cid document credentialId subjectId),
      bbs.sign (stampDocument cid document credentialId subjectId) sk⟩⟩, ?_, ?_⟩
  · unfold signCredential
    simp only [hfind, hsk, hb, if_true]
  · intro p
    show p ∈ entryPointers (stampDocument cid document credentialId subjectId) ↔ _
    unfold entryPointers
    rw [stampDocument_validFrom, stampDocument_validUntil]
    by_cases hf : truthyStr document.validFrom <;>
      by_cases hu : truthyStr document.validUntil <;>
      simp [hf, hu]

/-- A deterministic multi-message scheme for concrete checks: the public
key is the secret prefixed with the BBS multikey tag. -/
def bbsSchemeW : SigScheme :=
  ⟨fun _ k => k, fun k => "zUC7" ++ k, fun _ s p => p == "zUC7" ++ s⟩

/-- A deterministic single-message scheme for concrete checks. -/
def edSchemeW : SigScheme :=
  ⟨fun _ k => k, fun k => "zED" ++ k, fun _ s p => p == "zED" ++ s⟩

theorem bbsSchemeW_correct : bbsSchemeW.Correct := by
  intro d k
  show (("zUC7" ++ k) == ("zUC7" ++ k)) = true
  simp

theorem edSchemeW_correct : edSchemeW.Correct := by
  intro d k
  show (("zED" ++ k) == ("zED" ++ k)) = true
  simp

/-- A concrete CID document with one key of each family. -/
def cidW : CIDDoc :=
  ⟨"http://example.org/alice",
   [⟨"http://example.org/alice#key-1", "http://example.org/alice", "zEDk1"⟩,
    ⟨"http://example.org/alice#key-2", "http://example.org/alice", "zUC7k2"⟩],
   ["http://example.org/alice#key-1", "http://example.org/alice#key-2"],
   ["http://example.org/alice#key-1", "http://example.org/alice#key-2"],
   ["http://example.org/alice#key-1", "http://example.org/alice#key-2"],
   ["http://example.org/alice#key-1", "http://example.org/alice#key-2"]⟩

/-- The paired private key store for `cidW`. -/
def privateKeysW : List (String × String) :=
  [("http://example.org/alice#key-1", "k1"), ("http://example.org/alice#key-2", "k2")]

/-- A document carrying a `validFrom` claim whose value is the empty
string (present, but JavaScript-falsy). -/
def emptyValidFromDoc : CredDoc := ⟨none, none, none, some "", none, "claims"⟩

/-- C6 counterexample: this document has a `validFrom` claim
(`validFrom = some ""`), yet the mandatory-pointer set baked into the BBS
proof is exactly `['/issuer']` — `'/validFrom'` is missing, because
`signCredential` tests JavaScript truthiness, not presence. -/
theorem bbs_mandatory_pointer_empty_validFrom :
    emptyValidFromDoc.validFrom = some "" ∧
    ∃ sc, signCredential bbsSchemeW edSchemeW cidW privateKeysW emptyValidFromDoc
        "http://example.org/alice#key-2" none none = .ok sc ∧
      sc.proof.mandatoryPointers = ["/issuer"] := by
  exact ⟨rfl, ⟨_, rfl, rfl⟩⟩

/-- C10: with both key families enabled, `generateCID` publishes exactly
two verification methods, `controller#key-1` and `controller#key-2`; the
internally generated key pairs carry ids `controller#key-0` and
`controller#key-1` (one behind the published ids); and the private key
store is keyed exactly by the two published verification method ids. -/
theorem generateCID_key_numbering (edGen bbsGen : String → KeyGenResult)
    (controller : String) :
    ((generateCID edGen bbsGen controller true true).cid.verificationMethod.map
      (fun vm => vm.id)) = [controller ++ "#key-1", controller ++ "#key-2"] ∧
    (generateCID edGen bbsGen controller true true).generatedKeyIds =
      [controller ++ "#key-0", controller ++ "#key-1"] ∧
    ((generateCID edGen bbsGen controller true true).privateKeys.map Prod.fst) =
      [controller ++ "#key-1", controller ++ "#key-2"] := by
  have hfrag : ∀ (i : Nat) (suffix : String),
      "#key-".data ++ (natReprStr i).data = suffix.data →
      keyFragment controller i = controller ++ suffix := by
    intro i suffix hdat
    apply String.ext
    show ((controller ++ "#key-") ++ natReprStr i).data = (controller ++ suffix).data
    rw [String.data_append, String.data_append, String.data_append, List.append_assoc, hdat]
  have h0 : keyFragment controller 0 = controller ++ "#key-0" := hfrag 0 "#key-0" (by decide)
  have h1 : keyFragment controller 1 = controller ++ "#key-1" := hfrag 1 "#key-1" (by decide)
  have h2 : keyFragment controller 2 = controller ++ "#key-2" := hfrag 2 "#key-2" (by decide)
  refine ⟨?_, ?_, ?_⟩ <;> simp [generateCID, h0, h1, h2]

/-- C3: decoding the encoding of a valid derived-proof envelope yields the
envelope back, label-map compression/expansion included; and the encoding
is deterministic — byte-identical output for identical input. -/
theorem envelope_codec_roundtrip (e : ProofParams) (hv : validEnvelope e) :
    (∃ s, encodeDisclosureProofValue e = some s ∧
      parseDisclosureProofValue (some (.str s)) = .ok e) ∧
    (∀ e2 : ProofParams, e = e2 →
      encodeDisclosureProofValue e = encodeDisclosureProofValue e2) :=
  ⟨parse_encode_roundtrip e hv, fun _ h => by rw [h]⟩

/-- C8: `_decompressLabelMap` expands each integer pair `(k, v)` of a
compressed label map (a `Map`, so keys are pairwise distinct) to exactly
`("c14n" + decimal k, "b" + decimal v)`, a pure syntactic function of the
integers — never a data lookup. -/
theorem decompress_is_pure_expansion (cm : List (Int × Int))
    (h : (cm.map Prod.fst).Nodup) :
    decompressLabelMap cm =
      cm.map (fun p => ("c14n" ++ intReprStr p.1, "b" ++ intReprStr p.2)) :=
  decompressLabelMap_eq_map cm h

/-- A plain unsigned credential document. -/
def docPlain : CredDoc := ⟨none, none, none, none, none, "claims"⟩

/-- A credential document with a truthy `validFrom` claim. -/
def validFromDocW : CredDoc := ⟨none, none, none, some "2024-01-01", none, "claims"⟩

theorem sign_then_verify_witness :
    (∃ sc, signCredential bbsSchemeW edSchemeW cidW privateKeysW docPlain
        "http://example.org/alice#key-1" none none = .ok sc ∧
      verifyCredential bbsSchemeW edSchemeW cidW sc = .ok true) ∧
    (∃ sc, signCredential bbsSchemeW edSchemeW cidW privateKeysW docPlain
        "http://example.org/alice#key-2" none none = .ok sc ∧
      verifyCredential bbsSchemeW edSchemeW cidW sc = .ok true) :=
  ⟨sign_then_verify bbsSchemeW edSchemeW bbsSchemeW_correct edSchemeW_correct
      cidW privateKeysW docPlain "http://example.org/alice#key-1" none none
      ⟨"http://example.org/alice#key-1", "http://example.org/alice", "zEDk1"⟩
      rfl "k1" rfl (by decide),
   sign_then_verify bbsSchemeW edSchemeW bbsSchemeW_correct edSchemeW_correct
      cidW privateKeysW docPlain "http://example.org/alice#key-2" none none
      ⟨"http://example.org/alice#key-2", "http://example.org/alice", "zUC7k2"⟩
      rfl "k2" rfl (by decide)⟩

theorem proof_value_prefix_strictness_witness :
    parseDisclosureProofValue none =
      .error (.malformedProof "\"proof.proofValue\" must be a string.") ∧
    parseDisclosureProofValue (some (.str "abc")) =
      .error (.malformedProof "Only base64url multibase encoding is supported.") ∧
    parseDisclosureProofValue (some (.str "uabc")) =
      .error (.malformedProof "\"proof.proofValue\" must be a derived proof.") := by
  refine ⟨?_, ?_, ?_⟩
  · exact proof_value_prefix_strictness.1 none (by intro s; simp)
  · exact proof_value_prefix_strictness.2.1 "abc" (by decide)
  · exact proof_value_prefix_strictness.2.2.1 "uabc" [105, 183]
      (by decide) (by decide) (by decide)

/-- A concrete valid envelope. -/
def envW : ProofParams :=
  ⟨[1, 2, 3], decompressLabelMap [(0, 1), (2, 0)], [0, 2], [1], [9]⟩

theorem envelope_codec_roundtrip_witness :
    validEnvelope envW ∧
    ((∃ s, encodeDisclosureProofValue envW = some s ∧
       parseDisclosureProofValue (some (.str s)) = .ok envW) ∧
     (∀ e2, envW = e2 →
       encodeDisclosureProofValue envW = encodeDisclosureProofValue e2)) := by
  have hv : validEnvelope envW :=
    ⟨by decide, by decide, by decide, by decide, by decide, by decide, by decide,
     by decide, ⟨[(0, 1), (2, 0)], by decide, by decide, by decide, rfl⟩⟩
  exact ⟨hv, envelope_codec_roundtrip envW hv⟩

/-- An encoded empty envelope. -/
def pvEmptyEnvelope : Option JsVal :=
  some (.str (String.mk ('u' :: b64EncodeBytes (CBOR_PREFIX_DERIVED ++
    encEnvelopePayload [] [] [] [] []))))

theorem proof_hash_failure_propagation_witness :
    createVerifyData (.error (.external "hashCanonizedProof failed"))
      (fun _ => .ok ["stmt"]) (fun _ => .ok [7]) pvEmptyEnvelope =
      .error (.external "hashCanonizedProof failed") :=
  proof_hash_failure_propagation.2.1 (fun _ => .ok ["stmt"]) (fun _ => .ok [7])
    pvEmptyEnvelope (.external "hashCanonizedProof failed")
    ⟨[], [], [], [], []⟩ ["stmt"] [7] (by rfl) rfl rfl

theorem bbs_mandatory_pointer_set_witness :
    ∃ sc, signCredential bbsSchemeW edSchemeW cidW privateKeysW validFromDocW
        "http://example.org/alice#key-2" none none = .ok sc ∧
      ∀ p, p ∈ sc.proof.mandatoryPointers ↔
        (p = "/issuer" ∨
         (p = "/validFrom" ∧ truthyStr validFromDocW.validFrom = true) ∨
         (p = "/validUntil" ∧ truthyStr validFromDocW.validUntil = true)) :=
  bbs_mandatory_pointer_set bbsSchemeW edSchemeW cidW privateKeysW validFromDocW
    "http://example.org/alice#key-2" none none
    ⟨"http://example.org/alice#key-2", "http://example.org/alice", "zUC7k2"⟩
    rfl (by decide) "k2" rfl

theorem decompress_is_pure_expansion_witness :
    (([((0 : Int), (1 : Int)), (2, 0)].map Prod.fst).Nodup) ∧
    decompressLabelMap [((0 : Int), (1 : Int)), (2, 0)] =
      [((0 : Int), (1 : Int)), (2, 0)].map
        (fun p => ("c14n" ++ intReprStr p.1, "b" ++ intReprStr p.2)) :=
  ⟨by decide, decompress_is_pure_expansion _ (by decide)⟩

/-- A signed credential whose signature does not verify under `cidW`. -/
def scMismatchW : SignedCred :=
  ⟨⟨some "http://example.org/alice", none, none, none, none, "claims"⟩,
   ⟨"http://example.org/alice#key-2", [], "garbage"⟩⟩

theorem verify_mismatch_is_boolean_witness :
    verifyCredential bbsSchemeW edSchemeW cidW scMismatchW = .ok false := by
  have h := (verify_mismatch_is_boolean bbsSchemeW edSchemeW cidW scMismatchW).1
    ⟨"http://example.org/alice#key-2", "http://example.org/alice", "zUC7k2"⟩ rfl
    "http://example.org/alice" rfl
  rw [h]
  rfl

end VcCli
